import Mathlib

/-!
Verification of the fastbloom Bloom-filter library (`fastbloom-rs`): a shallow
embedding of `src/fastbloom-rs/src/bloom.rs`, `src/fastbloom-rs/src/vec.rs`
and `src/fastbloom-rs/src/builder.rs` for the 64-bit target
(`target_pointer_width = "64"`, so the machine word width is 64), together
with theorems settling the specification's claims.

Machine integers are embedded as `Nat`, with an explicit `% 2 ^ 64` at the one
place where unsigned 64-bit overflow can occur (`hash1 + i * hash2`; wrapping
the product and then the sum equals one wrap of the whole expression, so a
single `% 2 ^ 64` is written there).  Fallible operations return `Option`:
`none` models a Rust panic (slice indexing out of range, or `% m` with
`m = 0`).

The element hash `xxh3_64_with_seed` comes from the external `xxhash_rust`
crate and is not part of this repository; it is treated as a parameter of
type `HashFn` (a function from the hashed bytes and the seed to the 64-bit
hash value).  Every theorem below holds for an arbitrary hash function.
-/

/-- Byte strings (`&[u8]`): lists of byte values. -/
abbrev Bytes := List Nat

/-- Type of the external 64-bit seeded hash `xxh3_64_with_seed`: arguments
are the hashed bytes and the seed. -/
abbrev HashFn := Bytes → Nat → Nat

/-- Builder for Bloom filters (`FilterBuilder` in `builder.rs`).

The field `expected_elements` is kept as a `Nat`; `false_positive_probability`
is an `f64` in the source and is modelled as an exact rational (the modelled
operations only store and compare it, never compute with it).
`enable_repeat_insert` is absent from the stale copy of `builder.rs` in this
snapshot but is read by `CountingBloomFilter::add` in `bloom.rs` and set by
the builder's callers; it is included here as the data model requires.  Its
default is `true`, as the test `counting_bloom_from_test` requires (a builder
that never calls `enable_repeat_insert` must count repeated inserts). -/
structure FilterBuilder where
  expected_elements : Nat
  false_positive_probability : ℚ
  size : Nat
  hashes : Nat
  enable_repeat_insert : Bool
  done : Bool
deriving DecidableEq

/-- Constructor `FilterBuilder::new(expected_elements, false_positive_probability)`
(`builder.rs` lines 77-85).  The body only stores the two arguments (with
`size = 0`, `hashes = 0`, `done = false`); it contains no assertion or other
failure path, so construction succeeds for every input. -/
def FilterBuilder.new (expected_elements : Nat)
    (false_positive_probability : ℚ) : FilterBuilder :=
  ⟨expected_elements, false_positive_probability, 0, 0, true, false⟩

/-- Constructor `FilterBuilder::from_size_and_hashes(size, hashes)`
(`builder.rs` lines 90-100).  The stored `expected_elements` and
`false_positive_probability` are the results of the floating-point
computations `optimal_n` / `optimal_p`; they are informational only — no
modelled operation ever reads them (`complete()` is a no-op because `done` is
set to `true` here) — so they are represented by the placeholder `0`.  The
body performs no validation of `size` or `hashes`. -/
def FilterBuilder.from_size_and_hashes (size : Nat) (hashes : Nat) :
    FilterBuilder :=
  ⟨0, 0, size, hashes, true, true⟩

/-- Private setter `FilterBuilder::expected_elements` (`builder.rs` lines
103-106): asserts `expected_elements > 0`; `none` models the assertion
failure.  `FilterBuilder::new` never calls it. -/
def FilterBuilder.set_expected_elements (b : FilterBuilder) (n : Nat) :
    Option FilterBuilder :=
  if 0 < n then some { b with expected_elements := n } else none

/-- Private setter `FilterBuilder::false_positive_probability` (`builder.rs`
lines 109-113): asserts `p < 1.0 && p > 0.0`.  `FilterBuilder::new` never
calls it. -/
def FilterBuilder.set_false_positive_probability (b : FilterBuilder)
    (p : ℚ) : Option FilterBuilder :=
  if p < 1 ∧ 0 < p then some { b with false_positive_probability := p }
  else none

/-- Private setter `FilterBuilder::size` (`builder.rs` lines 116-119):
asserts `size & SUFFIX == 0`, i.e. 64 divides `size`.  Never called by the
constructors. -/
def FilterBuilder.set_size (b : FilterBuilder) (size : Nat) :
    Option FilterBuilder :=
  if size &&& 63 = 0 then some { b with size := size } else none

/-- Setter `FilterBuilder::enable_repeat_insert(enable)`: plain field update
(no validation); present in the builder's callers, absent from the stale
`builder.rs` copy. -/
def FilterBuilder.set_enable_repeat_insert (b : FilterBuilder) (e : Bool) :
    FilterBuilder :=
  { b with enable_repeat_insert := e }

/-- Embedding of `FilterBuilder::is_compatible_to` (`builder.rs` lines 144-146): equality
of `size` and `hashes`. -/
def FilterBuilder.is_compatible_to (a b : FilterBuilder) : Bool :=
  a.size == b.size && a.hashes == b.hashes

/-- Bit vector backing a Bloom filter (`BloomBitVec` in `vec.rs`), a list of
64-bit words plus the advertised bit count. -/
structure BloomBitVec where
  storage : List Nat
  nbits : Nat
deriving DecidableEq

/-- Embedding of `BloomBitVec::new(slots)` (`vec.rs` lines 22-27). -/
def BloomBitVec.new (slots : Nat) : BloomBitVec :=
  ⟨List.replicate slots 0, slots * 64⟩

/-- Embedding of `BloomBitVec::set(index)` (`vec.rs` lines 62-70): `w = index >> 6`,
`b = index & SUFFIX`, `storage[w] |= 1 << b`.  Rust indexing panics when `w`
is out of range: the `none` case. -/
def BloomBitVec.set (v : BloomBitVec) (index : Nat) : Option BloomBitVec :=
  match v.storage.get? (index >>> 6) with
  | none => none
  | some word =>
    some ⟨v.storage.set (index >>> 6) (word ||| (1 <<< (index &&& 63))),
      v.nbits⟩

/-- Embedding of `BloomBitVec::get(index)` (`vec.rs` lines 73-81):
`(storage[index >> 6] & (1 << (index & SUFFIX))) != 0`. -/
def BloomBitVec.get (v : BloomBitVec) (index : Nat) : Option Bool :=
  (v.storage.get? (index >>> 6)).map
    (fun word => (word &&& (1 <<< (index &&& 63))) != 0)

/-- Embedding of `BloomBitVec::or(other)` (`vec.rs` lines 83-87): `zip` pairs words up to
the shorter vector; the receiver's remaining words are left unchanged. -/
def BloomBitVec.or (v other : BloomBitVec) : BloomBitVec :=
  ⟨List.zipWith (· ||| ·) v.storage other.storage ++
      v.storage.drop other.storage.length, v.nbits⟩

/-- Embedding of `BloomBitVec::and(other)` (`vec.rs` lines 107-111). -/
def BloomBitVec.and (v other : BloomBitVec) : BloomBitVec :=
  ⟨List.zipWith (· &&& ·) v.storage other.storage ++
      v.storage.drop other.storage.length, v.nbits⟩

/-- Embedding of `BloomBitVec::clear()` (`vec.rs` lines 129-131). -/
def BloomBitVec.clear (v : BloomBitVec) : BloomBitVec :=
  ⟨List.replicate v.storage.length 0, v.nbits⟩

/-- Observer used only to state theorems: the bit at position `index`,
reading a word as `0` beyond the storage (where `BloomBitVec::get` panics).
In range it agrees with `get`. -/
def BloomBitVec.bitAt (v : BloomBitVec) (index : Nat) : Bool :=
  (v.storage.getD (index >>> 6) 0 &&& (1 <<< (index &&& 63))) != 0

/-- Well-formedness established by every constructor in the source: `nbits`
counts exactly the stored bits and every word is a 64-bit value. -/
def BloomBitVec.WF (v : BloomBitVec) : Prop :=
  v.nbits = 64 * v.storage.length ∧ ∀ w ∈ v.storage, w < 2 ^ 64

instance BloomBitVec.decWF (v : BloomBitVec) : Decidable v.WF := by
  unfold BloomBitVec.WF; infer_instance

/-- The `i`-th derived bit index `(hash1 + i * hash2) % m`, computed in
wrapping 64-bit arithmetic as in the source. -/
def hashIdx (hash1 hash2 m i : Nat) : Nat :=
  ((hash1 + i * hash2) % 2 ^ 64) % m

/-- The ordered tuple of derived indices of an element: `hash1` (pushed
outside the loop) followed by `(hash1 + i * hash2) % m` for `i = 1 .. k-1`,
where `hash1 = xxh3(value, 0) % m` and `hash2 = xxh3(value, 32) % m`.  This
is the list built by `get_bit_indices` / `get_hash_indices`; `bit_set` sets
the loop entries first and `hash1` last. -/
def derivedIndices (h : HashFn) (value : Bytes) (m k : Nat) : List Nat :=
  h value 0 % m ::
    (List.range' 1 (k - 1)).map (hashIdx (h value 0 % m) (h value 32 % m) m)

/-- Loop of `bit_set`: set each listed index in order, propagating the panic
of an out-of-range index. -/
def BloomBitVec.setList (v : BloomBitVec) : List Nat → Option BloomBitVec
  | [] => some v
  | i :: rest =>
    match v.set i with
    | none => none
    | some v' => v'.setList rest

/-- Loop shared by `bit_check` and the two `contains_hash_indices`: test the
listed bits in order with an early `return false`, propagating the panic of
an out-of-range index (which is only reached while every earlier listed bit
tested set). -/
def BloomBitVec.checkList (v : BloomBitVec) : List Nat → Option Bool
  | [] => some true
  | i :: rest =>
    match v.get i with
    | none => none
    | some false => some false
    | some true => v.checkList rest

/-- Free function `bit_set` (`bloom.rs` lines 12-26): hash the value with
seeds 0 and 32, reduce both hashes `% m` (a panic for `m = 0`), set
`(hash1 + i * hash2) % m` for `i = 1 .. k-1`, then set `hash1`. -/
def bloom_bit_set (h : HashFn) (v : BloomBitVec) (value : Bytes)
    (m k : Nat) : Option BloomBitVec :=
  if m = 0 then none else
  v.setList
    ((List.range' 1 (k - 1)).map
        (hashIdx (h value 0 % m) (h value 32 % m) m) ++ [h value 0 % m])

/-- Free function `bit_check` (`bloom.rs` lines 38-53): test `hash1` first,
then each loop index, returning `false` at the first unset bit. -/
def bloom_bit_check (h : HashFn) (v : BloomBitVec) (value : Bytes)
    (m k : Nat) : Option Bool :=
  if m = 0 then none else
  v.checkList (derivedIndices h value m k)

/-- Free function `get_bit_indices` (`bloom.rs` lines 56-69); its
`&BloomBitVec` parameter is unused in the source and omitted here. -/
def get_bit_indices (h : HashFn) (value : Bytes) (m k : Nat) :
    Option (List Nat) :=
  if m = 0 then none else some (derivedIndices h value m k)

/-- A Bloom filter (`bloom.rs` lines 80-83): a parameter record and a bit
vector. -/
structure BloomFilter where
  config : FilterBuilder
  bit_set : BloomBitVec
deriving DecidableEq

/-- Embedding of `Membership::add` for `BloomFilter` (`bloom.rs` lines 87-90). -/
def BloomFilter.add (h : HashFn) (F : BloomFilter) (element : Bytes) :
    Option BloomFilter :=
  (bloom_bit_set h F.bit_set element F.config.size F.config.hashes).map
    (fun v => ⟨F.config, v⟩)

/-- Embedding of `Membership::contains` for `BloomFilter` (`bloom.rs` lines 94-98). -/
def BloomFilter.contains (h : HashFn) (F : BloomFilter) (element : Bytes) :
    Option Bool :=
  bloom_bit_check h F.bit_set element F.config.size F.config.hashes

/-- Embedding of `Membership::get_hash_indices` for `BloomFilter` (`bloom.rs` lines
101-104). -/
def BloomFilter.get_hash_indices (h : HashFn) (F : BloomFilter)
    (element : Bytes) : Option (List Nat) :=
  get_bit_indices h element F.config.size F.config.hashes

/-- Embedding of `Membership::contains_hash_indices` for `BloomFilter` (`bloom.rs` lines
107-113): scan the given indices, `return false` at the first unset bit,
panic on an index whose word is beyond the storage. -/
def BloomFilter.contains_hash_indices (F : BloomFilter)
    (indices : List Nat) : Option Bool :=
  F.bit_set.checkList indices

/-- Embedding of `Membership::clear` for `BloomFilter` (`bloom.rs` lines 116-118). -/
def BloomFilter.clear (F : BloomFilter) : BloomFilter :=
  ⟨F.config, F.bit_set.clear⟩

/-- Embedding of `BloomFilter::union(other)` (`bloom.rs` lines 335-340): the returned pair
is (result, receiver after the call). -/
def BloomFilter.union (F other : BloomFilter) : Bool × BloomFilter :=
  if F.config.is_compatible_to other.config then
    (true, ⟨F.config, F.bit_set.or other.bit_set⟩)
  else (false, F)

/-- Embedding of `BloomFilter::intersect(other)` (`bloom.rs` lines 347-352). -/
def BloomFilter.intersect (F other : BloomFilter) : Bool × BloomFilter :=
  if F.config.is_compatible_to other.config then
    (true, ⟨F.config, F.bit_set.and other.bit_set⟩)
  else (false, F)

/-- Well-formedness of a Bloom filter as built by the source constructors:
the bit vector is well formed, `config.size` equals `nbits`, and the filter
is non-empty (`m = 0` would make every hash reduction `% m` panic). -/
def BloomFilter.WF (F : BloomFilter) : Prop :=
  F.bit_set.WF ∧ F.config.size = F.bit_set.nbits ∧ 0 < F.config.size

instance BloomFilter.decWF (F : BloomFilter) : Decidable F.WF := by
  unfold BloomFilter.WF; infer_instance

/-- A sequence of `add` calls, left to right. -/
def BloomFilter.addSeq (h : HashFn) (F : BloomFilter) :
    List Bytes → Option BloomFilter
  | [] => some F
  | e :: rest =>
    match BloomFilter.add h F e with
    | none => none
    | some F' => F'.addSeq h rest

/-- Decompose a word into `count` little-endian units of `unitBits` bits each
(the byte/`u16`/`u32` view of the storage: the source reinterprets the memory
of a little-endian 64-bit target in place). -/
def wordToUnits (unitBits : Nat) : Nat → Nat → List Nat
  | 0, _ => []
  | count + 1, w => w % 2 ^ unitBits :: wordToUnits unitBits count (w >>> unitBits)

/-- Recompose one word from little-endian units. -/
def unitsToWord (unitBits : Nat) : List Nat → Nat
  | [] => 0
  | u :: rest => u + unitsToWord unitBits rest <<< unitBits

/-- Read `count` words of `cpw` units each from a unit array: the
`copy_from_slice` of the `from_*_array` constructors, which copies exactly
`count` words' worth of units and ignores the rest of the buffer. -/
def unitsToWords (unitBits cpw : Nat) : Nat → List Nat → List Nat
  | 0, _ => []
  | count + 1, units =>
    unitsToWord unitBits (units.take cpw) ::
      unitsToWords unitBits cpw count (units.drop cpw)

/-- Embedding of `BloomFilter::get_u8_array` (`bloom.rs` lines 280-289): the storage
viewed as `storage.len() * 8` bytes, little-endian. -/
def BloomFilter.get_u8_array (F : BloomFilter) : List Nat :=
  (F.bit_set.storage.map (wordToUnits 8 8)).flatten

/-- Embedding of `BloomFilter::get_u16_array` (`bloom.rs` lines 292-300). -/
def BloomFilter.get_u16_array (F : BloomFilter) : List Nat :=
  (F.bit_set.storage.map (wordToUnits 16 4)).flatten

/-- Embedding of `BloomFilter::get_u32_array` (`bloom.rs` lines 303-311). -/
def BloomFilter.get_u32_array (F : BloomFilter) : List Nat :=
  (F.bit_set.storage.map (wordToUnits 32 2)).flatten

/-- Embedding of `BloomFilter::get_u64_array` (`bloom.rs` lines 314-328): on the 64-bit
target this is the identity view of the storage. -/
def BloomFilter.get_u64_array (F : BloomFilter) : List Nat :=
  F.bit_set.storage

/-- Embedding of `BloomFilter::from_u8_array(array, hashes)` (`bloom.rs` lines 157-175):
adopts `array.len() * 8` as the bit size and copies `size >> 6` words out of
the buffer.  There is no size check: for a buffer whose bit length is not a
multiple of 64 the trailing bytes are silently dropped (`size >> 6` rounds
down), and the fresh vector's `nbits = (size >> 6) * 64` then disagrees with
`config.size`. -/
def BloomFilter.from_u8_array (array : List Nat) (hashes : Nat) :
    BloomFilter :=
  let config := FilterBuilder.from_size_and_hashes (array.length * 8) hashes
  let slots := config.size >>> 6
  ⟨config, ⟨unitsToWords 8 8 slots array, slots * 64⟩⟩

/-- Embedding of `BloomFilter::from_u16_array(array, hashes)` (`bloom.rs` lines 186-204). -/
def BloomFilter.from_u16_array (array : List Nat) (hashes : Nat) :
    BloomFilter :=
  let config := FilterBuilder.from_size_and_hashes (array.length * 16) hashes
  let slots := config.size >>> 6
  ⟨config, ⟨unitsToWords 16 4 slots array, slots * 64⟩⟩

/-- Embedding of `BloomFilter::from_u32_array(array, hashes)` (`bloom.rs` lines 216-234). -/
def BloomFilter.from_u32_array (array : List Nat) (hashes : Nat) :
    BloomFilter :=
  let config := FilterBuilder.from_size_and_hashes (array.length * 32) hashes
  let slots := config.size >>> 6
  ⟨config, ⟨unitsToWords 32 2 slots array, slots * 64⟩⟩

/-- Embedding of `BloomFilter::from_u64_array(array, hashes)` (`bloom.rs` lines 245-263). -/
def BloomFilter.from_u64_array (array : List Nat) (hashes : Nat) :
    BloomFilter :=
  let config := FilterBuilder.from_size_and_hashes (array.length * 64) hashes
  let slots := config.size >>> 6
  ⟨config, ⟨unitsToWords 64 1 slots array, slots * 64⟩⟩

/-- Counter vector of the counting Bloom filter (`CountingVec` in `vec.rs`):
64-bit words holding 16 four-bit counters each, most significant nibble
first. -/
structure CountingVec where
  storage : List Nat
  counters : Nat
  counter_per_slot : Nat
deriving DecidableEq

/-- Embedding of `CountingVec::new(slots)` (`vec.rs` lines 152-159). -/
def CountingVec.new (slots : Nat) : CountingVec :=
  ⟨List.replicate slots 0, slots * 16, 16⟩

/-- Embedding of `CountingVec::get(index)` (`vec.rs` lines 208-222):
`(storage[index >> 4] >> ((15 - (index & 15)) * 4)) & 15`. -/
def CountingVec.get (v : CountingVec) (index : Nat) : Option Nat :=
  (v.storage.get? (index >>> 4)).map
    (fun slot => (slot >>> ((15 - (index &&& 15)) * 4)) &&& 15)

/-- Bitwise complement of a 64-bit word (`!mask` on `usize`). -/
def not64 (mask : Nat) : Nat := (2 ^ 64 - 1) ^^^ mask

/-- Embedding of `CountingVec::increment(index)` (`vec.rs` lines 162-183): read the
current counter (a panic out of range); when it is not 15, clear the nibble
and or in `current + 1`; a saturated counter is left untouched. -/
def CountingVec.increment (v : CountingVec) (index : Nat) :
    Option CountingVec :=
  match v.get index with
  | none => none
  | some current =>
    if current ≠ 15 then
      let w := index >>> 4
      let mb := (15 - (index &&& 15)) * 4
      some ⟨v.storage.set w
          ((v.storage.getD w 0 &&& not64 (15 <<< mb)) |||
            ((current + 1) <<< mb)),
        v.counters, v.counter_per_slot⟩
    else some v

/-- Embedding of `CountingVec::decrement(index)` (`vec.rs` lines 186-205): when the
current counter is positive, clear the nibble and or in `current - 1`; a
zero counter is left untouched. -/
def CountingVec.decrement (v : CountingVec) (index : Nat) :
    Option CountingVec :=
  match v.get index with
  | none => none
  | some current =>
    if 0 < current then
      let w := index >>> 4
      let mb := (15 - (index &&& 15)) * 4
      some ⟨v.storage.set w
          ((v.storage.getD w 0 &&& not64 (15 <<< mb)) |||
            ((current - 1) <<< mb)),
        v.counters, v.counter_per_slot⟩
    else some v

/-- Embedding of `CountingVec::clear()` (`vec.rs` lines 224-226). -/
def CountingVec.clear (v : CountingVec) : CountingVec :=
  ⟨List.replicate v.storage.length 0, v.counters, v.counter_per_slot⟩

/-- Observer used only to state theorems: the counter at `index`, reading a
word as `0` beyond the storage.  In range it agrees with `get`. -/
def CountingVec.nibAt (v : CountingVec) (index : Nat) : Nat :=
  (v.storage.getD (index >>> 4) 0 >>> ((15 - (index &&& 15)) * 4)) &&& 15

/-- Well-formedness established by the source constructors. -/
def CountingVec.WF (v : CountingVec) : Prop :=
  v.counters = 16 * v.storage.length ∧ v.counter_per_slot = 16 ∧
    ∀ w ∈ v.storage, w < 2 ^ 64

instance CountingVec.decWF (v : CountingVec) : Decidable v.WF := by
  unfold CountingVec.WF; infer_instance

/-- Insertion loop of `CountingBloomFilter::add`: increment each listed
counter in order. -/
def CountingVec.incList (v : CountingVec) : List Nat → Option CountingVec
  | [] => some v
  | i :: rest =>
    match v.increment i with
    | none => none
    | some v' => v'.incList rest

/-- Removal loop of `CountingBloomFilter::remove`: decrement each listed
counter in order. -/
def CountingVec.decList (v : CountingVec) : List Nat → Option CountingVec
  | [] => some v
  | i :: rest =>
    match v.decrement i with
    | none => none
    | some v' => v'.decList rest

/-- Membership scan shared by `CountingBloomFilter::{add, contains, remove,
contains_hash_indices}`: `res = get i₀ > 0 && get i₁ > 0 && …` with Rust's
short-circuit `&&` (a counter is read only while the running value is still
`true`, so an out-of-range index after a zero counter is never reached). -/
def CountingVec.checkList (v : CountingVec) : List Nat → Option Bool
  | [] => some true
  | i :: rest =>
    match v.get i with
    | none => none
    | some c => if 0 < c then v.checkList rest else some false

/-- A counting Bloom filter (`bloom.rs` lines 380-383). -/
structure CountingBloomFilter where
  config : FilterBuilder
  counting_vec : CountingVec
deriving DecidableEq

/-- Embedding of `Membership::add` for `CountingBloomFilter` (`bloom.rs` lines 500-525):
compute the presence of the element; when it is present and
`enable_repeat_insert` is off, return with the filter unchanged; otherwise
increment the loop indices in order and `hash1` last. -/
def CountingBloomFilter.add (h : HashFn) (F : CountingBloomFilter)
    (element : Bytes) : Option CountingBloomFilter :=
  if F.config.size = 0 then none else
  let m := F.config.size
  let hash1 := h element 0 % m
  let hash2 := h element 32 % m
  let tail := (List.range' 1 (F.config.hashes - 1)).map (hashIdx hash1 hash2 m)
  match F.counting_vec.checkList (hash1 :: tail) with
  | none => none
  | some res =>
    if res && !F.config.enable_repeat_insert then some F
    else
      (F.counting_vec.incList (tail ++ [hash1])).map
        (fun v => ⟨F.config, v⟩)

/-- Embedding of `Membership::contains` for `CountingBloomFilter` (`bloom.rs` lines
528-544): all derived counters are positive, with an early `return false`. -/
def CountingBloomFilter.contains (h : HashFn) (F : CountingBloomFilter)
    (element : Bytes) : Option Bool :=
  if F.config.size = 0 then none else
  F.counting_vec.checkList
    (derivedIndices h element F.config.size F.config.hashes)

/-- Embedding of `Membership::get_hash_indices` for `CountingBloomFilter` (`bloom.rs`
lines 546-560): the same tuple as for the plain filter. -/
def CountingBloomFilter.get_hash_indices (h : HashFn)
    (F : CountingBloomFilter) (element : Bytes) : Option (List Nat) :=
  if F.config.size = 0 then none else
  some (derivedIndices h element F.config.size F.config.hashes)

/-- Embedding of `Membership::contains_hash_indices` for `CountingBloomFilter`
(`bloom.rs` lines 562-568): scan the given indices, `return false` at the
first zero counter, panic on an index whose word is beyond the storage. -/
def CountingBloomFilter.contains_hash_indices (F : CountingBloomFilter)
    (indices : List Nat) : Option Bool :=
  F.counting_vec.checkList indices

/-- Embedding of `Deletable::remove` for `CountingBloomFilter` (`bloom.rs` lines
576-598): when the element is present, decrement the loop indices in order
and `hash1` last; otherwise do nothing. -/
def CountingBloomFilter.remove (h : HashFn) (F : CountingBloomFilter)
    (element : Bytes) : Option CountingBloomFilter :=
  if F.config.size = 0 then none else
  let m := F.config.size
  let hash1 := h element 0 % m
  let hash2 := h element 32 % m
  let tail := (List.range' 1 (F.config.hashes - 1)).map (hashIdx hash1 hash2 m)
  match F.counting_vec.checkList (hash1 :: tail) with
  | none => none
  | some res =>
    if res then
      (F.counting_vec.decList (tail ++ [hash1])).map
        (fun v => ⟨F.config, v⟩)
    else some F

/-- Embedding of `Membership::clear` for `CountingBloomFilter` (`bloom.rs` lines
570-572). -/
def CountingBloomFilter.clear (F : CountingBloomFilter) :
    CountingBloomFilter :=
  ⟨F.config, F.counting_vec.clear⟩

/-- Well-formedness of a counting Bloom filter as built by the source
constructors: `config.size` equals the counter capacity. -/
def CountingBloomFilter.WF (F : CountingBloomFilter) : Prop :=
  F.counting_vec.WF ∧ F.config.size = F.counting_vec.counters ∧
    0 < F.config.size

instance CountingBloomFilter.decWF (F : CountingBloomFilter) :
    Decidable F.WF := by
  unfold CountingBloomFilter.WF; infer_instance

/-- Performs `r` successive `add` calls with the same element. -/
def CountingBloomFilter.addTimes (h : HashFn) (F : CountingBloomFilter)
    (element : Bytes) : Nat → Option CountingBloomFilter
  | 0 => some F
  | r + 1 =>
    match CountingBloomFilter.add h F element with
    | none => none
    | some F' => F'.addTimes h element r

/-- Performs `r` successive `remove` calls with the same element. -/
def CountingBloomFilter.removeTimes (h : HashFn) (F : CountingBloomFilter)
    (element : Bytes) : Nat → Option CountingBloomFilter
  | 0 => some F
  | r + 1 =>
    match CountingBloomFilter.remove h F element with
    | none => none
    | some F' => F'.removeTimes h element r

/-! ### Arithmetic facts about bit positions and 64-bit words -/

theorem shiftRight_six (i : Nat) : i >>> 6 = i / 64 :=
  Nat.shiftRight_eq_div_pow i 6

theorem and_63 (i : Nat) : i &&& 63 = i % 64 := by
  have h := Nat.and_pow_two_sub_one_eq_mod i 6
  norm_num at h
  exact h

theorem bit_pos_inj {i j : Nat} (hw : i >>> 6 = j >>> 6)
    (hb : i &&& 63 = j &&& 63) : i = j := by
  rw [shiftRight_six, shiftRight_six] at hw
  rw [and_63, and_63] at hb
  omega

theorem and_one_shift_ne (x b : Nat) :
    ((x &&& (1 <<< b)) != 0) = x.testBit b := by
  rw [Nat.shiftLeft_eq, one_mul, Nat.and_two_pow]
  cases h : x.testBit b <;> simp [h]

theorem testBit_lor_one_shift (x b j : Nat) :
    (x ||| (1 <<< b)).testBit j = (x.testBit j || decide (j = b)) := by
  rw [Nat.testBit_lor, Nat.shiftLeft_eq, one_mul, Nat.testBit_two_pow]
  cases h : x.testBit j <;> simp [h, eq_comm]

theorem lor_one_shift_lt {x : Nat} (hx : x < 2 ^ 64) (b : Nat)
    (hb : b < 64) : x ||| (1 <<< b) < 2 ^ 64 := by
  refine Nat.or_lt_two_pow hx ?_
  rw [Nat.shiftLeft_eq, one_mul]
  exact Nat.pow_lt_pow_right (by norm_num) hb

/-! ### Lemmas about `BloomBitVec` -/

theorem BloomBitVec.get_eq_bitAt (v : BloomBitVec) (i : Nat)
    (h : i >>> 6 < v.storage.length) : v.get i = some (v.bitAt i) := by
  unfold BloomBitVec.get BloomBitVec.bitAt
  rw [List.get?_eq_getElem?, List.getElem?_eq_getElem h,
    List.getD_eq_getElem?_getD, List.getElem?_eq_getElem h]
  rfl

theorem BloomBitVec.get_bit_none (v : BloomBitVec) (i : Nat)
    (h : v.storage.length ≤ i >>> 6) : v.get i = none := by
  unfold BloomBitVec.get
  rw [List.get?_eq_getElem?, List.getElem?_eq_none h]
  rfl

theorem BloomBitVec.set_some (v : BloomBitVec) (i : Nat)
    (h : i >>> 6 < v.storage.length) :
    ∃ v', v.set i = some v' ∧ v'.nbits = v.nbits ∧
      v'.storage.length = v.storage.length ∧
      (∀ j, v'.bitAt j = (v.bitAt j || decide (j = i))) ∧
      ((∀ w ∈ v.storage, w < 2 ^ 64) → ∀ w ∈ v'.storage, w < 2 ^ 64) := by
  have hget : v.storage.get? (i >>> 6) = some (v.storage[i >>> 6]) := by
    rw [List.get?_eq_getElem?, List.getElem?_eq_getElem h]
  refine ⟨⟨v.storage.set (i >>> 6)
      (v.storage[i >>> 6] ||| (1 <<< (i &&& 63))), v.nbits⟩,
    ?_, rfl, List.length_set .., ?_, ?_⟩
  · unfold BloomBitVec.set
    rw [hget]
  · intro j
    unfold BloomBitVec.bitAt
    simp only
    by_cases hj : j >>> 6 = i >>> 6
    · rw [hj, List.getD_eq_getElem?_getD, List.getElem?_set_self' ..,
        List.getD_eq_getElem?_getD, List.getElem?_eq_getElem h]
      simp only [List.getElem?_eq_getElem h, Option.map_some, Option.getD_some,
        Function.const_apply]
      rw [and_one_shift_ne, and_one_shift_ne, testBit_lor_one_shift]
      congr 1
      by_cases hji : j = i
      · simp [hji]
      · have hbb : ¬(j &&& 63 = i &&& 63) := fun hb => hji (bit_pos_inj hj hb)
        simp [hji, hbb]
    · rw [List.getD_eq_getElem?_getD, List.getElem?_set_ne (fun he => hj he.symm),
        ← List.getD_eq_getElem?_getD]
      have hji : ¬(j = i) := fun he => hj (by rw [he])
      simp [hji]
  · intro hb w hw
    rcases List.mem_or_eq_of_mem_set hw with hmem | heq
    · exact hb w hmem
    · subst heq
      refine lor_one_shift_lt (hb _ (List.getElem_mem h)) _ ?_
      rw [and_63]
      exact Nat.mod_lt i (by norm_num)

theorem BloomBitVec.setList_char (L : List Nat) (v : BloomBitVec)
    (hb : ∀ p ∈ L, p >>> 6 < v.storage.length) :
    ∃ v', v.setList L = some v' ∧ v'.nbits = v.nbits ∧
      v'.storage.length = v.storage.length ∧
      (∀ j, v'.bitAt j = (v.bitAt j || decide (j ∈ L))) ∧
      ((∀ w ∈ v.storage, w < 2 ^ 64) → ∀ w ∈ v'.storage, w < 2 ^ 64) := by
  induction L generalizing v with
  | nil => exact ⟨v, rfl, rfl, rfl, by simp, fun hw => hw⟩
  | cons i rest ih =>
    obtain ⟨v₁, hv₁, hn₁, hl₁, hbit₁, hw₁⟩ :=
      v.set_some i (hb i (List.mem_cons_self ..))
    obtain ⟨v₂, hv₂, hn₂, hl₂, hbit₂, hw₂⟩ :=
      ih v₁ (fun p hp => hl₁ ▸ hb p (List.mem_cons_of_mem _ hp))
    refine ⟨v₂, ?_, hn₂.trans hn₁, hl₂.trans hl₁, ?_, fun hw => hw₂ (hw₁ hw)⟩
    · unfold BloomBitVec.setList
      rw [hv₁]
      exact hv₂
    · intro j
      rw [hbit₂ j, hbit₁ j]
      by_cases hji : j = i <;> by_cases hjr : j ∈ rest <;>
        simp [hji, hjr]

theorem BloomBitVec.checkList_bits_eq (L : List Nat) (v : BloomBitVec)
    (hb : ∀ p ∈ L, p >>> 6 < v.storage.length) :
    v.checkList L = some (L.all v.bitAt) := by
  induction L with
  | nil => rfl
  | cons i rest ih =>
    unfold BloomBitVec.checkList
    rw [v.get_eq_bitAt i (hb i (List.mem_cons_self ..))]
    cases hbi : v.bitAt i with
    | false => simp [hbi]
    | true =>
      rw [ih (fun p hp => hb p (List.mem_cons_of_mem _ hp))]
      simp [hbi]

/-! ### Lemmas about the derived index tuple -/

theorem derivedIndices_length (h : HashFn) (value : Bytes) (m k : Nat)
    (hk : 1 ≤ k) : (derivedIndices h value m k).length = k := by
  unfold derivedIndices
  simp only [List.length_cons, List.length_map, List.length_range']
  omega

theorem derivedIndices_lt (h : HashFn) (value : Bytes) (m k : Nat)
    (hm : 0 < m) : ∀ p ∈ derivedIndices h value m k, p < m := by
  intro p hp
  unfold derivedIndices at hp
  rcases List.mem_cons.mp hp with he | hmem
  · rw [he]
    exact Nat.mod_lt _ hm
  · obtain ⟨i, _, he⟩ := List.mem_map.mp hmem
    rw [← he]
    exact Nat.mod_lt _ hm

theorem word_lt_of_lt {p m len : Nat} (hp : p < m) (hm : m = 64 * len) :
    p >>> 6 < len := by
  rw [shiftRight_six]
  omega

/-! ### Characterizations of the Bloom-filter operations -/

theorem BloomFilter.add_sets_bits (h : HashFn) (F : BloomFilter) (E : Bytes)
    (hwf : F.WF) :
    ∃ F', F.add h E = some F' ∧ F'.config = F.config ∧ F'.WF ∧
      F'.bit_set.storage.length = F.bit_set.storage.length ∧
      ∀ j, F'.bit_set.bitAt j = (F.bit_set.bitAt j ||
        decide (j ∈ derivedIndices h E F.config.size F.config.hashes)) := by
  obtain ⟨⟨hnb, hbound⟩, hsz, hpos⟩ := hwf
  have hm : F.config.size ≠ 0 := Nat.pos_iff_ne_zero.mp hpos
  have hmem : ∀ p, p ∈ (List.range' 1 (F.config.hashes - 1)).map
      (hashIdx (h E 0 % F.config.size) (h E 32 % F.config.size) F.config.size) ++
      [h E 0 % F.config.size] →
      p ∈ derivedIndices h E F.config.size F.config.hashes := by
    intro p hp
    unfold derivedIndices
    rcases List.mem_append.mp hp with hl | hr
    · exact List.mem_cons_of_mem _ hl
    · rw [List.mem_singleton.mp hr]
      exact List.mem_cons_self ..
  have hb : ∀ p ∈ (List.range' 1 (F.config.hashes - 1)).map
      (hashIdx (h E 0 % F.config.size) (h E 32 % F.config.size) F.config.size) ++
      [h E 0 % F.config.size], p >>> 6 < F.bit_set.storage.length := by
    intro p hp
    exact word_lt_of_lt
      (derivedIndices_lt h E F.config.size F.config.hashes hpos p (hmem p hp))
      (hsz.trans hnb)
  obtain ⟨v', hv', hn', hl', hbit', hw'⟩ := BloomBitVec.setList_char _ _ hb
  refine ⟨⟨F.config, v'⟩, ?_, rfl, ⟨⟨?_, hw' hbound⟩, ?_, hpos⟩, hl', ?_⟩
  · unfold BloomFilter.add bloom_bit_set
    rw [if_neg hm, hv']
    rfl
  · rw [hn', hnb, hl']
  · rw [hn']
    exact hsz
  · intro j
    rw [hbit' j]
    congr 1
    refine decide_eq_decide.mpr ?_
    unfold derivedIndices
    rw [List.mem_append, List.mem_singleton, List.mem_cons]
    tauto

theorem BloomFilter.contains_all_bits (h : HashFn) (F : BloomFilter) (E : Bytes)
    (hwf : F.WF) :
    F.contains h E = some
      ((derivedIndices h E F.config.size F.config.hashes).all
        F.bit_set.bitAt) := by
  obtain ⟨⟨hnb, _⟩, hsz, hpos⟩ := hwf
  unfold BloomFilter.contains bloom_bit_check
  rw [if_neg (Nat.pos_iff_ne_zero.mp hpos)]
  exact BloomBitVec.checkList_bits_eq _ _ (fun p hp => word_lt_of_lt
    (derivedIndices_lt h E F.config.size F.config.hashes hpos p hp)
    (hsz.trans hnb))

theorem BloomFilter.addSeq_char (h : HashFn) (es : List Bytes)
    (F : BloomFilter) (hwf : F.WF) :
    ∃ F', F.addSeq h es = some F' ∧ F'.config = F.config ∧ F'.WF ∧
      (∀ j, F.bit_set.bitAt j = true → F'.bit_set.bitAt j = true) ∧
      (∀ E ∈ es, ∀ p ∈ derivedIndices h E F.config.size F.config.hashes,
        F'.bit_set.bitAt p = true) := by
  induction es generalizing F with
  | nil => exact ⟨F, rfl, rfl, hwf, fun _ hj => hj, by simp⟩
  | cons e rest ih =>
    obtain ⟨F₁, hF₁, hc₁, hwf₁, _, hbit₁⟩ := F.add_sets_bits h e hwf
    obtain ⟨F₂, hF₂, hc₂, hwf₂, hmono₂, hset₂⟩ := ih F₁ hwf₁
    refine ⟨F₂, ?_, hc₂.trans hc₁, hwf₂, ?_, ?_⟩
    · unfold BloomFilter.addSeq
      rw [hF₁]
      exact hF₂
    · intro j hj
      refine hmono₂ j ?_
      rw [hbit₁ j, hj]
      rfl
    · intro E hE p hp
      rcases List.mem_cons.mp hE with he | hmem
      · subst he
        refine hmono₂ p ?_
        rw [hbit₁ p]
        simp [hp]
      · exact hset₂ E hmem p (by rw [hc₁]; exact hp)

/-! ### Concrete fixtures used by witnesses and counterexamples -/

/-- Concrete stand-in hash used by witnesses (the theorems hold for every
`HashFn`). -/
def hashFx : HashFn := fun v s => v.foldl (fun a b => a * 31 + b) s

/-- Zero hash function, used by counterexamples. -/
def hashZero : HashFn := fun _ _ => 0

/-- Concrete well-formed two-word Bloom filter. -/
def bloomFx : BloomFilter := ⟨⟨0, 0, 128, 2, true, true⟩, ⟨[0, 0], 128⟩⟩

/-! ### Claim C1 -/

/-- Claim C1: no false negatives.  For every sequence of `add` operations on
a well-formed Bloom filter and every element `E` of the sequence, the
sequence of adds succeeds and a subsequent `contains E` returns `true`;
moreover `contains` returns exactly "all k derived bits are set", and `add`
never clears a bit. -/
theorem bloom_no_false_negatives (h : HashFn) (F : BloomFilter)
    (es : List Bytes) (E : Bytes) (hwf : F.WF) (hE : E ∈ es) :
    (∃ F', F.addSeq h es = some F' ∧ F'.contains h E = some true) ∧
    (∀ v, F.contains h v = some
      ((derivedIndices h v F.config.size F.config.hashes).all
        F.bit_set.bitAt)) ∧
    (∀ v F', F.add h v = some F' →
      ∀ j, F.bit_set.bitAt j = true → F'.bit_set.bitAt j = true) := by
  refine ⟨?_, fun v => F.contains_all_bits h v hwf, ?_⟩
  · obtain ⟨F', hF', hc', hwf', _, hset'⟩ := F.addSeq_char h es hwf
    refine ⟨F', hF', ?_⟩
    rw [F'.contains_all_bits h E hwf', hc']
    have hall : (derivedIndices h E F.config.size F.config.hashes).all
        F'.bit_set.bitAt = true :=
      List.all_eq_true.mpr (fun p hp => hset' E hE p hp)
    rw [hall]
  · intro v F' hadd j hj
    obtain ⟨F'', hF'', _, _, _, hbit''⟩ := F.add_sets_bits h v hwf
    rw [hadd] at hF''
    obtain rfl : F' = F'' := by injection hF''
    rw [hbit'' j, hj]
    rfl

/-- Witness for C1 at a concrete filter, hash and element sequence. -/
theorem bloom_no_false_negatives_wit :
    ∃ F', bloomFx.addSeq hashFx [[1], [2]] = some F' ∧
      F'.contains hashFx [2] = some true :=
  (bloom_no_false_negatives hashFx bloomFx [[1], [2]] [2]
    (by decide) (by decide)).1

/-! ### Claim C2 -/

/-- Claim C2: double-hashing index derivation.  For a well-formed filter with
`k ≥ 1` hashes (the data model requires `k` positive) whose index arithmetic
does not overflow 64 bits, `get_hash_indices` returns a tuple of exactly `k`
entries whose `i`-th entry is `(h₁ + i·h₂) mod m` where `h₁, h₂` are the raw
hashes of the element with seeds 0 and 32; `add` sets exactly the bits of
this tuple and `contains` tests exactly these positions. -/
theorem bloom_double_hashing (h : HashFn) (F : BloomFilter) (E : Bytes)
    (hwf : F.WF) (hk : 1 ≤ F.config.hashes)
    (hov : h E 0 % F.config.size +
      (F.config.hashes - 1) * (h E 32 % F.config.size) < 2 ^ 64) :
    ∃ l, F.get_hash_indices h E = some l ∧ l.length = F.config.hashes ∧
      (∀ i, i < F.config.hashes →
        l[i]? = some ((h E 0 + i * h E 32) % F.config.size)) ∧
      (∃ F', F.add h E = some F' ∧
        ∀ j, F'.bit_set.bitAt j = (F.bit_set.bitAt j || decide (j ∈ l))) ∧
      F.contains h E = some (l.all F.bit_set.bitAt) := by
  obtain ⟨⟨hnb, hbound⟩, hsz, hpos⟩ := hwf
  set m := F.config.size with hm
  set k := F.config.hashes with hk'
  refine ⟨derivedIndices h E m k, ?_, derivedIndices_length h E m k hk, ?_, ?_, ?_⟩
  · unfold BloomFilter.get_hash_indices get_bit_indices
    rw [if_neg (Nat.pos_iff_ne_zero.mp hpos)]
  · intro i hi
    unfold derivedIndices
    match i with
    | 0 =>
      simp only [List.getElem?_cons_zero, Nat.zero_mul, Nat.add_zero]
    | i + 1 =>
      have hi' : i < k - 1 := by omega
      rw [List.getElem?_cons_succ, List.getElem?_map,
        List.getElem?_eq_getElem (by simpa using hi')]
      simp only [List.getElem_range', one_mul, Option.map_some']
      congr 1
      unfold hashIdx
      have hle : h E 0 % m + (1 + i) * (h E 32 % m) ≤
          h E 0 % m + (k - 1) * (h E 32 % m) := by
        have h1i : 1 + i ≤ k - 1 := by omega
        exact Nat.add_le_add_left (Nat.mul_le_mul_right _ h1i) _
      rw [Nat.mod_eq_of_lt (lt_of_le_of_lt hle hov)]
      have hcomm : i + 1 = 1 + i := by omega
      rw [hcomm]
      exact Nat.ModEq.add (Nat.mod_modEq (h E 0) m)
        (Nat.ModEq.mul_left (1 + i) (Nat.mod_modEq (h E 32) m))
  · obtain ⟨F', hF', _, _, _, hbit'⟩ :=
      F.add_sets_bits h E ⟨⟨hnb, hbound⟩, hsz, hpos⟩
    exact ⟨F', hF', hbit'⟩
  · exact F.contains_all_bits h E ⟨⟨hnb, hbound⟩, hsz, hpos⟩

/-- Witness for C2 at a concrete filter, hash and element. -/
theorem bloom_double_hashing_wit :
    ∃ l, bloomFx.get_hash_indices hashFx [3] = some l ∧
      l.length = bloomFx.config.hashes ∧
      (∀ i, i < bloomFx.config.hashes →
        l[i]? = some ((hashFx [3] 0 + i * hashFx [3] 32) %
          bloomFx.config.size)) ∧
      (∃ F', bloomFx.add hashFx [3] = some F' ∧
        ∀ j, F'.bit_set.bitAt j =
          (bloomFx.bit_set.bitAt j || decide (j ∈ l))) ∧
      bloomFx.contains hashFx [3] = some (l.all bloomFx.bit_set.bitAt) :=
  bloom_double_hashing hashFx bloomFx [3] (by decide) (by decide) (by decide)

/-! ### Claim C6 -/

theorem compat_iff (a b : FilterBuilder) :
    a.is_compatible_to b = true ↔ (a.size = b.size ∧ a.hashes = b.hashes) := by
  unfold FilterBuilder.is_compatible_to
  simp

/-- Claim C6: union/intersect compatibility and atomicity.  `A.union B`
(resp. `A.intersect B`) returns `true` and replaces `A`'s storage by the
word-wise OR (resp. AND) of the two storages exactly when `A` and `B` agree
on `size` and `hashes`; otherwise it returns `false` and leaves `A`
completely unchanged.  Both operations are total functions of the embedding:
no input makes them panic. -/
theorem union_intersect_compat (A B : BloomFilter) (hA : A.WF) (hB : B.WF) :
    ((A.union B).1 = true ↔
      (A.config.size = B.config.size ∧ A.config.hashes = B.config.hashes)) ∧
    ((A.intersect B).1 = true ↔
      (A.config.size = B.config.size ∧ A.config.hashes = B.config.hashes)) ∧
    ((A.union B).1 = true →
      (A.union B).2.config = A.config ∧
      (A.union B).2.bit_set.nbits = A.bit_set.nbits ∧
      (A.union B).2.bit_set.storage =
        List.zipWith (· ||| ·) A.bit_set.storage B.bit_set.storage) ∧
    ((A.union B).1 = false → (A.union B).2 = A) ∧
    ((A.intersect B).1 = true →
      (A.intersect B).2.config = A.config ∧
      (A.intersect B).2.bit_set.nbits = A.bit_set.nbits ∧
      (A.intersect B).2.bit_set.storage =
        List.zipWith (· &&& ·) A.bit_set.storage B.bit_set.storage) ∧
    ((A.intersect B).1 = false → (A.intersect B).2 = A) := by
  by_cases hc : A.config.is_compatible_to B.config = true
  · have hand := (compat_iff _ _).mp hc
    have hlen : A.bit_set.storage.length = B.bit_set.storage.length := by
      obtain ⟨⟨hnA, _⟩, hszA, _⟩ := hA
      obtain ⟨⟨hnB, _⟩, hszB, _⟩ := hB
      have := hand.1
      omega
    have hdrop : A.bit_set.storage.drop B.bit_set.storage.length = [] :=
      List.drop_eq_nil_of_le (le_of_eq hlen)
    unfold BloomFilter.union BloomFilter.intersect
    rw [if_pos hc, if_pos hc]
    refine ⟨by simp [hand], by simp [hand], ?_, by simp, ?_, by simp⟩
    · exact fun _ => ⟨rfl, rfl, by
        unfold BloomBitVec.or
        rw [hdrop, List.append_nil]⟩
    · exact fun _ => ⟨rfl, rfl, by
        unfold BloomBitVec.and
        rw [hdrop, List.append_nil]⟩
  · have hnand : ¬(A.config.size = B.config.size ∧
        A.config.hashes = B.config.hashes) :=
      fun hand => hc ((compat_iff _ _).mpr hand)
    unfold BloomFilter.union BloomFilter.intersect
    rw [if_neg hc, if_neg hc]
    exact ⟨by simpa using hnand, by simpa using hnand,
      by simp, fun _ => rfl, by simp, fun _ => rfl⟩

/-- Second fixture filter, incompatible with `bloomFx` (different k). -/
def bloomFy : BloomFilter := ⟨⟨0, 0, 128, 3, true, true⟩, ⟨[5, 9], 128⟩⟩

/-- Witness for C6 at two concrete filters. -/
theorem union_intersect_compat_wit :
    ((bloomFx.union bloomFy).1 = true ↔
      (bloomFx.config.size = bloomFy.config.size ∧
        bloomFx.config.hashes = bloomFy.config.hashes)) ∧
    ((bloomFx.intersect bloomFy).1 = true ↔
      (bloomFx.config.size = bloomFy.config.size ∧
        bloomFx.config.hashes = bloomFy.config.hashes)) ∧
    ((bloomFx.union bloomFy).1 = true →
      (bloomFx.union bloomFy).2.config = bloomFx.config ∧
      (bloomFx.union bloomFy).2.bit_set.nbits = bloomFx.bit_set.nbits ∧
      (bloomFx.union bloomFy).2.bit_set.storage =
        List.zipWith (· ||| ·) bloomFx.bit_set.storage
          bloomFy.bit_set.storage) ∧
    ((bloomFx.union bloomFy).1 = false →
      (bloomFx.union bloomFy).2 = bloomFx) ∧
    ((bloomFx.intersect bloomFy).1 = true →
      (bloomFx.intersect bloomFy).2.config = bloomFx.config ∧
      (bloomFx.intersect bloomFy).2.bit_set.nbits =
        bloomFx.bit_set.nbits ∧
      (bloomFx.intersect bloomFy).2.bit_set.storage =
        List.zipWith (· &&& ·) bloomFx.bit_set.storage
          bloomFy.bit_set.storage) ∧
    ((bloomFx.intersect bloomFy).1 = false →
      (bloomFx.intersect bloomFy).2 = bloomFx) :=
  union_intersect_compat bloomFx bloomFy (by decide) (by decide)

/-! ### Claim C7 -/

theorem wordToUnits_length (b : Nat) : ∀ c w, (wordToUnits b c w).length = c := by
  intro c
  induction c with
  | zero => intro w; rfl
  | succ c ih =>
    intro w
    unfold wordToUnits
    rw [List.length_cons, ih]

theorem unitsToWord_wordToUnits (b : Nat) :
    ∀ c w, w < 2 ^ (b * c) → unitsToWord b (wordToUnits b c w) = w := by
  intro c
  induction c with
  | zero =>
    intro w hw
    rw [Nat.mul_zero, pow_zero] at hw
    interval_cases w
    rfl
  | succ c ih =>
    intro w hw
    show w % 2 ^ b + unitsToWord b (wordToUnits b c (w >>> b)) <<< b = w
    rw [ih (w >>> b) ?_]
    · rw [Nat.shiftRight_eq_div_pow, Nat.shiftLeft_eq]
      exact Nat.mod_add_div' w (2 ^ b)
    · rw [Nat.shiftRight_eq_div_pow]
      refine (Nat.div_lt_iff_lt_mul (Nat.pos_pow_of_pos b (by norm_num))).mpr ?_
      rw [← pow_add]
      have he : b * c + b = b * (c + 1) := by ring
      rw [he]
      exact hw

theorem flatten_units_length (b cpw : Nat) (storage : List Nat) :
    ((storage.map (wordToUnits b cpw)).flatten).length = cpw * storage.length := by
  induction storage with
  | nil => rfl
  | cons w rest ih =>
    rw [List.map_cons, List.flatten_cons, List.length_append, ih,
      wordToUnits_length, List.length_cons]
    ring

theorem units_round_trip (b cpw : Nat) (hb : b * cpw = 64)
    (storage : List Nat) (hbound : ∀ w ∈ storage, w < 2 ^ 64) :
    unitsToWords b cpw storage.length
      ((storage.map (wordToUnits b cpw)).flatten) = storage := by
  induction storage with
  | nil => rfl
  | cons w rest ih =>
    rw [List.map_cons, List.flatten_cons, List.length_cons]
    show unitsToWord b ((wordToUnits b cpw w ++
        (rest.map (wordToUnits b cpw)).flatten).take cpw) ::
      unitsToWords b cpw rest.length ((wordToUnits b cpw w ++
        (rest.map (wordToUnits b cpw)).flatten).drop cpw) = w :: rest
    rw [List.take_left' (wordToUnits_length b cpw w),
      List.drop_left' (wordToUnits_length b cpw w),
      unitsToWord_wordToUnits b cpw w
        (by rw [hb]; exact hbound w (List.mem_cons_self ..)),
      ih (fun x hx => hbound x (List.mem_cons_of_mem _ hx))]

theorem unitsToWords_id (l : List Nat) : unitsToWords 64 1 l.length l = l := by
  induction l with
  | nil => rfl
  | cons w rest ih =>
    rw [List.length_cons]
    show unitsToWord 64 ((w :: rest).take 1) ::
      unitsToWords 64 1 rest.length ((w :: rest).drop 1) = w :: rest
    have ht : (w :: rest).take 1 = [w] := rfl
    have hd : (w :: rest).drop 1 = rest := rfl
    rw [ht, hd, ih]
    show (w + (0 : Nat) <<< 64) :: rest = w :: rest
    rw [Nat.shiftLeft_eq, zero_mul, Nat.add_zero]

theorem BloomFilter.contains_congr {A G : BloomFilter}
    (hsz : G.config.size = A.config.size)
    (hh : G.config.hashes = A.config.hashes) (hbv : G.bit_set = A.bit_set) :
    ∀ (h : HashFn) (E : Bytes), G.contains h E = A.contains h E := by
  intro h E
  unfold BloomFilter.contains
  rw [hsz, hh, hbv]

theorem from_u8_get_u8 (F : BloomFilter) (hwf : F.WF) :
    BloomFilter.from_u8_array F.get_u8_array F.config.hashes =
      ⟨FilterBuilder.from_size_and_hashes F.config.size F.config.hashes,
        F.bit_set⟩ := by
  obtain ⟨⟨hnb, hbound⟩, hsz, _⟩ := hwf
  have hL : F.get_u8_array.length = 8 * F.bit_set.storage.length :=
    flatten_units_length 8 8 F.bit_set.storage
  have hsz64 : F.config.size = 64 * F.bit_set.storage.length := hsz.trans hnb
  have hLs : F.get_u8_array.length * 8 = F.config.size := by
    rw [hL, hsz64]; ring
  have hslots : (F.get_u8_array.length * 8) >>> 6 =
      F.bit_set.storage.length := by
    rw [hLs, hsz64, shiftRight_six]; omega
  show (⟨FilterBuilder.from_size_and_hashes (F.get_u8_array.length * 8)
      F.config.hashes,
    ⟨unitsToWords 8 8 ((F.get_u8_array.length * 8) >>> 6) F.get_u8_array,
      ((F.get_u8_array.length * 8) >>> 6) * 64⟩⟩ : BloomFilter) = _
  rw [hslots]
  have hrt : unitsToWords 8 8 F.bit_set.storage.length F.get_u8_array =
      F.bit_set.storage :=
    units_round_trip 8 8 (by norm_num) F.bit_set.storage hbound
  rw [hrt, hLs]
  congr 1
  conv_rhs => rw [show F.bit_set = ⟨F.bit_set.storage, F.bit_set.nbits⟩ from rfl]
  congr 1
  omega

theorem from_u16_get_u16 (F : BloomFilter) (hwf : F.WF) :
    BloomFilter.from_u16_array F.get_u16_array F.config.hashes =
      ⟨FilterBuilder.from_size_and_hashes F.config.size F.config.hashes,
        F.bit_set⟩ := by
  obtain ⟨⟨hnb, hbound⟩, hsz, _⟩ := hwf
  have hL : F.get_u16_array.length = 4 * F.bit_set.storage.length :=
    flatten_units_length 16 4 F.bit_set.storage
  have hsz64 : F.config.size = 64 * F.bit_set.storage.length := hsz.trans hnb
  have hLs : F.get_u16_array.length * 16 = F.config.size := by
    rw [hL, hsz64]; ring
  have hslots : (F.get_u16_array.length * 16) >>> 6 =
      F.bit_set.storage.length := by
    rw [hLs, hsz64, shiftRight_six]; omega
  show (⟨FilterBuilder.from_size_and_hashes (F.get_u16_array.length * 16)
      F.config.hashes,
    ⟨unitsToWords 16 4 ((F.get_u16_array.length * 16) >>> 6) F.get_u16_array,
      ((F.get_u16_array.length * 16) >>> 6) * 64⟩⟩ : BloomFilter) = _
  rw [hslots]
  have hrt : unitsToWords 16 4 F.bit_set.storage.length F.get_u16_array =
      F.bit_set.storage :=
    units_round_trip 16 4 (by norm_num) F.bit_set.storage hbound
  rw [hrt, hLs]
  congr 1
  conv_rhs => rw [show F.bit_set = ⟨F.bit_set.storage, F.bit_set.nbits⟩ from rfl]
  congr 1
  omega

theorem from_u32_get_u32 (F : BloomFilter) (hwf : F.WF) :
    BloomFilter.from_u32_array F.get_u32_array F.config.hashes =
      ⟨FilterBuilder.from_size_and_hashes F.config.size F.config.hashes,
        F.bit_set⟩ := by
  obtain ⟨⟨hnb, hbound⟩, hsz, _⟩ := hwf
  have hL : F.get_u32_array.length = 2 * F.bit_set.storage.length :=
    flatten_units_length 32 2 F.bit_set.storage
  have hsz64 : F.config.size = 64 * F.bit_set.storage.length := hsz.trans hnb
  have hLs : F.get_u32_array.length * 32 = F.config.size := by
    rw [hL, hsz64]; ring
  have hslots : (F.get_u32_array.length * 32) >>> 6 =
      F.bit_set.storage.length := by
    rw [hLs, hsz64, shiftRight_six]; omega
  show (⟨FilterBuilder.from_size_and_hashes (F.get_u32_array.length * 32)
      F.config.hashes,
    ⟨unitsToWords 32 2 ((F.get_u32_array.length * 32) >>> 6) F.get_u32_array,
      ((F.get_u32_array.length * 32) >>> 6) * 64⟩⟩ : BloomFilter) = _
  rw [hslots]
  have hrt : unitsToWords 32 2 F.bit_set.storage.length F.get_u32_array =
      F.bit_set.storage :=
    units_round_trip 32 2 (by norm_num) F.bit_set.storage hbound
  rw [hrt, hLs]
  congr 1
  conv_rhs => rw [show F.bit_set = ⟨F.bit_set.storage, F.bit_set.nbits⟩ from rfl]
  congr 1
  omega

theorem from_u64_get_u64 (F : BloomFilter) (hwf : F.WF) :
    BloomFilter.from_u64_array F.get_u64_array F.config.hashes =
      ⟨FilterBuilder.from_size_and_hashes F.config.size F.config.hashes,
        F.bit_set⟩ := by
  obtain ⟨⟨hnb, _⟩, hsz, _⟩ := hwf
  have hsz64 : F.config.size = 64 * F.bit_set.storage.length := hsz.trans hnb
  have hLs : F.get_u64_array.length * 64 = F.config.size := by
    show F.bit_set.storage.length * 64 = _
    omega
  have hslots : (F.get_u64_array.length * 64) >>> 6 =
      F.bit_set.storage.length := by
    rw [hLs, hsz64, shiftRight_six]; omega
  show (⟨FilterBuilder.from_size_and_hashes (F.get_u64_array.length * 64)
      F.config.hashes,
    ⟨unitsToWords 64 1 ((F.get_u64_array.length * 64) >>> 6) F.get_u64_array,
      ((F.get_u64_array.length * 64) >>> 6) * 64⟩⟩ : BloomFilter) = _
  rw [hslots]
  have hrt : unitsToWords 64 1 F.bit_set.storage.length F.get_u64_array =
      F.bit_set.storage := unitsToWords_id F.bit_set.storage
  rw [hrt, hLs]
  congr 1
  conv_rhs => rw [show F.bit_set = ⟨F.bit_set.storage, F.bit_set.nbits⟩ from rfl]
  congr 1
  omega

theorem round_trip_block (F G : BloomFilter)
    (hG : G = ⟨FilterBuilder.from_size_and_hashes F.config.size
      F.config.hashes, F.bit_set⟩) :
    G.config.size = F.config.size ∧ G.config.hashes = F.config.hashes ∧
    G.config.is_compatible_to F.config = true ∧ G.bit_set = F.bit_set ∧
    ∀ (h : HashFn) (E : Bytes), G.contains h E = F.contains h E := by
  subst hG
  exact ⟨rfl, rfl, (compat_iff _ _).mpr ⟨rfl, rfl⟩, rfl,
    BloomFilter.contains_congr rfl rfl rfl⟩

/-- Claim C7: export/import round-trip.  For every well-formed filter `F`
and every export width in {8, 16, 32, 64}, rebuilding a filter from the
exported array and `F`'s hash count yields a filter with the same `(m, k)`
parameters (hence compatible with `F`) and an identical backing bit vector,
so `contains` answers identically for every element and every hash
function. -/
theorem export_import_round_trip (F : BloomFilter) (hwf : F.WF) :
    ((BloomFilter.from_u8_array F.get_u8_array F.config.hashes).config.size =
        F.config.size ∧
      (BloomFilter.from_u8_array F.get_u8_array
        F.config.hashes).config.hashes = F.config.hashes ∧
      (BloomFilter.from_u8_array F.get_u8_array
        F.config.hashes).config.is_compatible_to F.config = true ∧
      (BloomFilter.from_u8_array F.get_u8_array F.config.hashes).bit_set =
        F.bit_set ∧
      ∀ (h : HashFn) (E : Bytes),
        (BloomFilter.from_u8_array F.get_u8_array
          F.config.hashes).contains h E = F.contains h E) ∧
    ((BloomFilter.from_u16_array F.get_u16_array
        F.config.hashes).config.size = F.config.size ∧
      (BloomFilter.from_u16_array F.get_u16_array
        F.config.hashes).config.hashes = F.config.hashes ∧
      (BloomFilter.from_u16_array F.get_u16_array
        F.config.hashes).config.is_compatible_to F.config = true ∧
      (BloomFilter.from_u16_array F.get_u16_array F.config.hashes).bit_set =
        F.bit_set ∧
      ∀ (h : HashFn) (E : Bytes),
        (BloomFilter.from_u16_array F.get_u16_array
          F.config.hashes).contains h E = F.contains h E) ∧
    ((BloomFilter.from_u32_array F.get_u32_array
        F.config.hashes).config.size = F.config.size ∧
      (BloomFilter.from_u32_array F.get_u32_array
        F.config.hashes).config.hashes = F.config.hashes ∧
      (BloomFilter.from_u32_array F.get_u32_array
        F.config.hashes).config.is_compatible_to F.config = true ∧
      (BloomFilter.from_u32_array F.get_u32_array F.config.hashes).bit_set =
        F.bit_set ∧
      ∀ (h : HashFn) (E : Bytes),
        (BloomFilter.from_u32_array F.get_u32_array
          F.config.hashes).contains h E = F.contains h E) ∧
    ((BloomFilter.from_u64_array F.get_u64_array
        F.config.hashes).config.size = F.config.size ∧
      (BloomFilter.from_u64_array F.get_u64_array
        F.config.hashes).config.hashes = F.config.hashes ∧
      (BloomFilter.from_u64_array F.get_u64_array
        F.config.hashes).config.is_compatible_to F.config = true ∧
      (BloomFilter.from_u64_array F.get_u64_array F.config.hashes).bit_set =
        F.bit_set ∧
      ∀ (h : HashFn) (E : Bytes),
        (BloomFilter.from_u64_array F.get_u64_array
          F.config.hashes).contains h E = F.contains h E) :=
  ⟨round_trip_block F _ (from_u8_get_u8 F hwf),
   round_trip_block F _ (from_u16_get_u16 F hwf),
   round_trip_block F _ (from_u32_get_u32 F hwf),
   round_trip_block F _ (from_u64_get_u64 F hwf)⟩

/-- Witness for C7 at a concrete filter. -/
theorem export_import_round_trip_wit :
    ((BloomFilter.from_u8_array bloomFx.get_u8_array
        bloomFx.config.hashes).config.size = bloomFx.config.size ∧
      (BloomFilter.from_u8_array bloomFx.get_u8_array
        bloomFx.config.hashes).config.hashes = bloomFx.config.hashes ∧
      (BloomFilter.from_u8_array bloomFx.get_u8_array
        bloomFx.config.hashes).config.is_compatible_to bloomFx.config =
        true ∧
      (BloomFilter.from_u8_array bloomFx.get_u8_array
        bloomFx.config.hashes).bit_set = bloomFx.bit_set ∧
      ∀ (h : HashFn) (E : Bytes),
        (BloomFilter.from_u8_array bloomFx.get_u8_array
          bloomFx.config.hashes).contains h E = bloomFx.contains h E) ∧
    ((BloomFilter.from_u16_array bloomFx.get_u16_array
        bloomFx.config.hashes).config.size = bloomFx.config.size ∧
      (BloomFilter.from_u16_array bloomFx.get_u16_array
        bloomFx.config.hashes).config.hashes = bloomFx.config.hashes ∧
      (BloomFilter.from_u16_array bloomFx.get_u16_array
        bloomFx.config.hashes).config.is_compatible_to bloomFx.config =
        true ∧
      (BloomFilter.from_u16_array bloomFx.get_u16_array
        bloomFx.config.hashes).bit_set = bloomFx.bit_set ∧
      ∀ (h : HashFn) (E : Bytes),
        (BloomFilter.from_u16_array bloomFx.get_u16_array
          bloomFx.config.hashes).contains h E = bloomFx.contains h E) ∧
    ((BloomFilter.from_u32_array bloomFx.get_u32_array
        bloomFx.config.hashes).config.size = bloomFx.config.size ∧
      (BloomFilter.from_u32_array bloomFx.get_u32_array
        bloomFx.config.hashes).config.hashes = bloomFx.config.hashes ∧
      (BloomFilter.from_u32_array bloomFx.get_u32_array
        bloomFx.config.hashes).config.is_compatible_to bloomFx.config =
        true ∧
      (BloomFilter.from_u32_array bloomFx.get_u32_array
        bloomFx.config.hashes).bit_set = bloomFx.bit_set ∧
      ∀ (h : HashFn) (E : Bytes),
        (BloomFilter.from_u32_array bloomFx.get_u32_array
          bloomFx.config.hashes).contains h E = bloomFx.contains h E) ∧
    ((BloomFilter.from_u64_array bloomFx.get_u64_array
        bloomFx.config.hashes).config.size = bloomFx.config.size ∧
      (BloomFilter.from_u64_array bloomFx.get_u64_array
        bloomFx.config.hashes).config.hashes = bloomFx.config.hashes ∧
      (BloomFilter.from_u64_array bloomFx.get_u64_array
        bloomFx.config.hashes).config.is_compatible_to bloomFx.config =
        true ∧
      (BloomFilter.from_u64_array bloomFx.get_u64_array
        bloomFx.config.hashes).bit_set = bloomFx.bit_set ∧
      ∀ (h : HashFn) (E : Bytes),
        (BloomFilter.from_u64_array bloomFx.get_u64_array
          bloomFx.config.hashes).contains h E = bloomFx.contains h E) :=
  export_import_round_trip bloomFx (by decide)

/-! ### Claim C8 -/

/-- Claim C8 (code bug): constructor validation is absent.  `FilterBuilder::new`
accepts `n = 0` and `p = 2 ∉ (0,1)` and returns an ordinary builder, and
`from_size_and_hashes` accepts `m = 0`, `m = 65` (not a multiple of the word
width) and `k = 0` — no construction ever fails.  The asserting private
setters that carry exactly the claimed validation exist in `builder.rs` but
are never invoked by the constructors: on the same inputs they fail. -/
theorem builder_constructors_no_validation :
    FilterBuilder.new 0 2 = ⟨0, 2, 0, 0, true, false⟩ ∧
    FilterBuilder.from_size_and_hashes 0 0 = ⟨0, 0, 0, 0, true, true⟩ ∧
    FilterBuilder.from_size_and_hashes 65 3 = ⟨0, 0, 65, 3, true, true⟩ ∧
    (FilterBuilder.new 0 2).set_expected_elements 0 = none ∧
    (FilterBuilder.new 0 2).set_false_positive_probability 2 = none ∧
    (FilterBuilder.new 0 2).set_size 65 = none := by
  refine ⟨rfl, rfl, rfl, rfl, ?_, by decide⟩
  unfold FilterBuilder.set_false_positive_probability
  norm_num

/-! ### Claim C9 -/

/-- Claim C9 (code bug): reconstruction from a mis-sized buffer does not
fail.  `from_u8_array` on a 3-byte buffer (24 bits, not a multiple of 64)
silently succeeds, truncating the storage to `24 >> 6 = 0` words: the result
advertises `size = 24` over an empty storage (`nbits = 0`), violating the
well-formedness every source constructor otherwise maintains (and the
`size == nbits` assertion of `set_bit_vec`), and the first `contains` query
on it panics. -/
theorem from_u8_array_missized :
    BloomFilter.from_u8_array [0, 0, 0] 4 =
      ⟨⟨0, 0, 24, 4, true, true⟩, ⟨[], 0⟩⟩ ∧
    ¬(BloomFilter.from_u8_array [0, 0, 0] 4).WF ∧
    (BloomFilter.from_u8_array [0, 0, 0] 4).contains hashZero [] = none := by
  refine ⟨rfl, by decide, rfl⟩

/-! ### Arithmetic facts about 4-bit counters inside 64-bit words -/

theorem shiftRight_four (i : Nat) : i >>> 4 = i / 16 :=
  Nat.shiftRight_eq_div_pow i 4

theorem and_15 (i : Nat) : i &&& 15 = i % 16 := by
  have h := Nat.and_pow_two_sub_one_eq_mod i 4
  norm_num at h
  exact h

theorem nib_pos_inj {i j : Nat} (hw : i >>> 4 = j >>> 4)
    (hb : i &&& 15 = j &&& 15) : i = j := by
  rw [shiftRight_four, shiftRight_four] at hw
  rw [and_15, and_15] at hb
  omega

theorem testBit_mask15 (s p : Nat) :
    (15 <<< s).testBit p = (decide (s ≤ p) && decide (p - s < 4)) := by
  rw [Nat.testBit_shiftLeft]
  have h15 : (15 : Nat) = 2 ^ 4 - 1 := rfl
  rw [h15, Nat.testBit_two_pow_sub_one]

theorem testBit_not64 (mask p : Nat) :
    (not64 mask).testBit p = Bool.xor (decide (p < 64)) (mask.testBit p) := by
  unfold not64
  rw [Nat.testBit_xor, Nat.testBit_two_pow_sub_one]

theorem testBit_nibble (w s j : Nat) :
    ((w >>> s) &&& 15).testBit j = (w.testBit (s + j) && decide (j < 4)) := by
  rw [Nat.testBit_land, Nat.testBit_shiftRight]
  have h15 : (15 : Nat) = 2 ^ 4 - 1 := rfl
  rw [h15, Nat.testBit_two_pow_sub_one]

theorem nibble_lt (w s : Nat) : (w >>> s) &&& 15 < 16 :=
  Nat.lt_succ_of_le Nat.and_le_right

theorem nib_ext {u v : Nat} (hu : u < 16) (hv : v < 16)
    (hj : ∀ j, j < 4 → u.testBit j = v.testBit j) : u = v := by
  refine Nat.eq_of_testBit_eq (fun j => ?_)
  by_cases h4 : j < 4
  · exact hj j h4
  · have h16 : (16 : Nat) ≤ 2 ^ j := by
      calc (16 : Nat) = 2 ^ 4 := rfl
      _ ≤ 2 ^ j := Nat.pow_le_pow_right (by norm_num) (by omega)
    rw [Nat.testBit_eq_false_of_lt (lt_of_lt_of_le hu h16),
      Nat.testBit_eq_false_of_lt (lt_of_lt_of_le hv h16)]

theorem testBit_lt_sixteen {v j : Nat} (hv : v < 16) (hj : 4 ≤ j) :
    v.testBit j = false :=
  Nat.testBit_eq_false_of_lt (lt_of_lt_of_le hv (by
    calc (16 : Nat) = 2 ^ 4 := rfl
    _ ≤ 2 ^ j := Nat.pow_le_pow_right (by norm_num) hj))

theorem write_read_same_s (w v s : Nat) (hs : s ≤ 60) (hv : v ≤ 15) :
    (((w &&& not64 (15 <<< s)) ||| (v <<< s)) >>> s) &&& 15 = v := by
  refine nib_ext (nibble_lt _ _) (by omega) (fun j hj => ?_)
  rw [testBit_nibble, Nat.testBit_lor, Nat.testBit_land, testBit_not64,
    testBit_mask15, Nat.testBit_shiftLeft]
  have h1 : s + j - s = j := by omega
  have h2 : s ≤ s + j := by omega
  have h3 : s + j < 64 := by omega
  simp [h1, h2, h3, hj, ge_iff_le]

theorem write_read_other_s (w v s t : Nat) (hs : s ≤ 60) (ht : t ≤ 60)
    (hgap : s + 4 ≤ t ∨ t + 4 ≤ s) (hv : v ≤ 15) :
    (((w &&& not64 (15 <<< s)) ||| (v <<< s)) >>> t) &&& 15 =
      (w >>> t) &&& 15 := by
  refine nib_ext (nibble_lt _ _) (nibble_lt _ _) (fun j hj => ?_)
  rw [testBit_nibble, testBit_nibble, Nat.testBit_lor, Nat.testBit_land,
    testBit_not64, testBit_mask15, Nat.testBit_shiftLeft]
  have h64 : t + j < 64 := by omega
  rcases hgap with hg | hg
  · have ha : s ≤ t + j := by omega
    have hb' : ¬(t + j - s < 4) := by omega
    have hvb : v.testBit (t + j - s) = false :=
      testBit_lt_sixteen (by omega) (by omega)
    simp [ha, hb', h64, hj, hvb, ge_iff_le]
  · have ha : ¬(s ≤ t + j) := by omega
    simp [ha, h64, hj, ge_iff_le]

theorem write_reconstruct_s (w s : Nat) (hs : s ≤ 60) (hw : w < 2 ^ 64) :
    (w &&& not64 (15 <<< s)) ||| (((w >>> s) &&& 15) <<< s) = w := by
  refine Nat.eq_of_testBit_eq (fun p => ?_)
  rw [Nat.testBit_lor, Nat.testBit_land, testBit_not64, testBit_mask15,
    Nat.testBit_shiftLeft, testBit_nibble]
  by_cases hp : p < 64
  · by_cases hm1 : s ≤ p
    · by_cases hm2 : p - s < 4
      · have hsp : s + (p - s) = p := by omega
        simp [hm1, hm2, hp, hsp, ge_iff_le]
      · simp [hm1, hm2, hp, ge_iff_le]
    · simp [hm1, hp, ge_iff_le]
  · have hw0 : w.testBit p = false :=
      Nat.testBit_eq_false_of_lt (lt_of_lt_of_le hw
        (Nat.pow_le_pow_right (by norm_num) (by omega)))
    have hnb : ((w >>> s) &&& 15).testBit (p - s) = false :=
      testBit_lt_sixteen (nibble_lt _ _) (by omega)
    rw [testBit_nibble] at hnb
    have h4 : ¬(p - s < 4) := by omega
    simp [hw0, hp, h4]

theorem write_lt_s (w v s : Nat) (hs : s ≤ 60) (hv : v ≤ 15)
    (hw : w < 2 ^ 64) :
    (w &&& not64 (15 <<< s)) ||| (v <<< s) < 2 ^ 64 := by
  refine Nat.or_lt_two_pow (lt_of_le_of_lt Nat.and_le_left hw) ?_
  rw [Nat.shiftLeft_eq]
  calc v * 2 ^ s ≤ 15 * 2 ^ 60 :=
        Nat.mul_le_mul hv (Nat.pow_le_pow_right (by norm_num) hs)
  _ < 2 ^ 64 := by norm_num

theorem word_nib_ext {w w' : Nat} (hw : w < 2 ^ 64) (hw' : w' < 2 ^ 64)
    (hnib : ∀ b, b ≤ 15 →
      (w >>> ((15 - b) * 4)) &&& 15 = (w' >>> ((15 - b) * 4)) &&& 15) :
    w = w' := by
  refine Nat.eq_of_testBit_eq (fun p => ?_)
  by_cases hp : p < 64
  · have hb : 15 - p / 4 ≤ 15 := by omega
    have hq := hnib (15 - p / 4) hb
    have hs : (15 - (15 - p / 4)) * 4 = p / 4 * 4 := by omega
    rw [hs] at hq
    have h4 := congrArg (fun x => x.testBit (p % 4)) hq
    simp only at h4
    rw [testBit_nibble, testBit_nibble] at h4
    have hpm : p / 4 * 4 + p % 4 = p := by omega
    have hlt : p % 4 < 4 := by omega
    rw [hpm] at h4
    simpa [hlt] using h4
  · rw [Nat.testBit_eq_false_of_lt (lt_of_lt_of_le hw
        (Nat.pow_le_pow_right (by norm_num) (by omega))),
      Nat.testBit_eq_false_of_lt (lt_of_lt_of_le hw'
        (Nat.pow_le_pow_right (by norm_num) (by omega)))]

/-! ### Lemmas about `CountingVec` -/

theorem CountingVec.get_eq_nibAt (v : CountingVec) (i : Nat)
    (h : i >>> 4 < v.storage.length) : v.get i = some (v.nibAt i) := by
  unfold CountingVec.get CountingVec.nibAt
  rw [List.get?_eq_getElem?, List.getElem?_eq_getElem h,
    List.getD_eq_getElem?_getD, List.getElem?_eq_getElem h]
  rfl

theorem CountingVec.get_count_none (v : CountingVec) (i : Nat)
    (h : v.storage.length ≤ i >>> 4) : v.get i = none := by
  unfold CountingVec.get
  rw [List.get?_eq_getElem?, List.getElem?_eq_none h]
  rfl

theorem CountingVec.nibAt_le (v : CountingVec) (i : Nat) : v.nibAt i ≤ 15 :=
  Nat.and_le_right

theorem CountingVec.get_le {v : CountingVec} {i c : Nat}
    (h : v.get i = some c) : c ≤ 15 := by
  unfold CountingVec.get at h
  obtain ⟨slot, _, hc⟩ := Option.map_eq_some'.mp h
  rw [← hc]
  exact Nat.and_le_right

theorem CountingVec.nibAt_set_word (v : CountingVec) (i : Nat)
    (hw : i >>> 4 < v.storage.length) (val : Nat) (hval : val ≤ 15) :
    ∀ j, (⟨v.storage.set (i >>> 4)
        ((v.storage.getD (i >>> 4) 0 &&&
            not64 (15 <<< ((15 - (i &&& 15)) * 4))) |||
          (val <<< ((15 - (i &&& 15)) * 4))),
      v.counters, v.counter_per_slot⟩ : CountingVec).nibAt j =
      if j = i then val else v.nibAt j := by
  intro j
  have hgetD : v.storage.getD (i >>> 4) 0 = v.storage[i >>> 4] := by
    rw [List.getD_eq_getElem?_getD, List.getElem?_eq_getElem hw]
    rfl
  have hb15 : i &&& 15 ≤ 15 := by rw [and_15]; omega
  have hs60 : (15 - (i &&& 15)) * 4 ≤ 60 := by omega
  by_cases hj4 : j >>> 4 = i >>> 4
  · by_cases hjb : j &&& 15 = i &&& 15
    · have hji : j = i := nib_pos_inj hj4 hjb
      subst hji
      rw [if_pos rfl]
      unfold CountingVec.nibAt
      simp only
      rw [List.getD_eq_getElem?_getD, List.getElem?_set_eq hw,
        Option.getD_some, hgetD]
      exact write_read_same_s _ _ _ hs60 hval
    · have hji : ¬(j = i) := fun he => hjb (by rw [he])
      have hgap : (15 - (i &&& 15)) * 4 + 4 ≤ (15 - (j &&& 15)) * 4 ∨
          (15 - (j &&& 15)) * 4 + 4 ≤ (15 - (i &&& 15)) * 4 := by
        rw [and_15, and_15] at hjb ⊢
        omega
      rw [if_neg hji]
      unfold CountingVec.nibAt
      simp only
      rw [hj4, List.getD_eq_getElem?_getD, List.getElem?_set_eq hw,
        Option.getD_some, hgetD,
        write_read_other_s _ _ _ _ hs60 (by rw [and_15]; omega) hgap hval]
  · have hji : ¬(j = i) := fun he => hj4 (by rw [he])
    rw [if_neg hji]
    unfold CountingVec.nibAt
    simp only
    rw [List.getD_eq_getElem?_getD,
      List.getElem?_set_ne (fun he => hj4 he.symm),
      ← List.getD_eq_getElem?_getD]

theorem CountingVec.set_word_wf (v : CountingVec) (i : Nat)
    (hwf : v.WF) (hw : i >>> 4 < v.storage.length) (val : Nat)
    (hval : val ≤ 15) :
    (⟨v.storage.set (i >>> 4)
        ((v.storage.getD (i >>> 4) 0 &&&
            not64 (15 <<< ((15 - (i &&& 15)) * 4))) |||
          (val <<< ((15 - (i &&& 15)) * 4))),
      v.counters, v.counter_per_slot⟩ : CountingVec).WF := by
  obtain ⟨hc, hcps, hbound⟩ := hwf
  have hgetD : v.storage.getD (i >>> 4) 0 = v.storage[i >>> 4] := by
    rw [List.getD_eq_getElem?_getD, List.getElem?_eq_getElem hw]
    rfl
  refine ⟨by rw [List.length_set]; exact hc, hcps, ?_⟩
  intro x hx
  rcases List.mem_or_eq_of_mem_set hx with hmem | heq
  · exact hbound x hmem
  · subst heq
    rw [hgetD]
    exact write_lt_s _ _ _ (by rw [and_15]; omega) hval
      (hbound _ (List.getElem_mem hw))

theorem CountingVec.inc_char (v : CountingVec) (i : Nat) (hwf : v.WF)
    (hi : i < v.counters) :
    ∃ v', v.increment i = some v' ∧ v'.counters = v.counters ∧
      v'.counter_per_slot = v.counter_per_slot ∧
      v'.storage.length = v.storage.length ∧ v'.WF ∧
      ∀ j, v'.nibAt j =
        if j = i then min 15 (v.nibAt i + 1) else v.nibAt j := by
  obtain ⟨hc, hcps, hbound⟩ := hwf
  have hw : i >>> 4 < v.storage.length := by rw [shiftRight_four]; omega
  have hget := v.get_eq_nibAt i hw
  by_cases hsat : v.nibAt i = 15
  · refine ⟨v, ?_, rfl, rfl, rfl, ⟨hc, hcps, hbound⟩, ?_⟩
    · unfold CountingVec.increment
      rw [hget, hsat]
      simp
    · intro j
      by_cases hj : j = i
      · subst hj
        rw [if_pos rfl, hsat]
        omega
      · rw [if_neg hj]
  · have hcur : v.nibAt i < 15 := lt_of_le_of_ne (v.nibAt_le i) hsat
    refine ⟨⟨v.storage.set (i >>> 4)
        ((v.storage.getD (i >>> 4) 0 &&&
            not64 (15 <<< ((15 - (i &&& 15)) * 4))) |||
          ((v.nibAt i + 1) <<< ((15 - (i &&& 15)) * 4))),
        v.counters, v.counter_per_slot⟩,
      ?_, rfl, rfl, List.length_set ..,
      v.set_word_wf i ⟨hc, hcps, hbound⟩ hw _ (by omega), ?_⟩
    · unfold CountingVec.increment
      rw [hget]
      simp only [hsat, ne_eq, not_false_eq_true, if_true, ite_true]
    · intro j
      rw [v.nibAt_set_word i hw (v.nibAt i + 1) (by omega) j]
      by_cases hj : j = i
      · subst hj
        rw [if_pos rfl, if_pos rfl]
        omega
      · rw [if_neg hj, if_neg hj]

theorem CountingVec.dec_char (v : CountingVec) (i : Nat) (hwf : v.WF)
    (hi : i < v.counters) :
    ∃ v', v.decrement i = some v' ∧ v'.counters = v.counters ∧
      v'.counter_per_slot = v.counter_per_slot ∧
      v'.storage.length = v.storage.length ∧ v'.WF ∧
      ∀ j, v'.nibAt j = if j = i then v.nibAt i - 1 else v.nibAt j := by
  obtain ⟨hc, hcps, hbound⟩ := hwf
  have hw : i >>> 4 < v.storage.length := by rw [shiftRight_four]; omega
  have hget := v.get_eq_nibAt i hw
  by_cases hz : v.nibAt i = 0
  · refine ⟨v, ?_, rfl, rfl, rfl, ⟨hc, hcps, hbound⟩, ?_⟩
    · unfold CountingVec.decrement
      rw [hget, hz]
      simp
    · intro j
      by_cases hj : j = i
      · subst hj
        rw [if_pos rfl, hz]
      · rw [if_neg hj]
  · have hpos : 0 < v.nibAt i := Nat.pos_of_ne_zero hz
    refine ⟨⟨v.storage.set (i >>> 4)
        ((v.storage.getD (i >>> 4) 0 &&&
            not64 (15 <<< ((15 - (i &&& 15)) * 4))) |||
          ((v.nibAt i - 1) <<< ((15 - (i &&& 15)) * 4))),
        v.counters, v.counter_per_slot⟩,
      ?_, rfl, rfl, List.length_set ..,
      v.set_word_wf i ⟨hc, hcps, hbound⟩ hw _
        (le_trans (Nat.sub_le ..) (v.nibAt_le i)), ?_⟩
    · unfold CountingVec.decrement
      rw [hget]
      simp only [hpos, if_true, ite_true]
    · intro j
      rw [v.nibAt_set_word i hw (v.nibAt i - 1)
        (le_trans (Nat.sub_le ..) (v.nibAt_le i)) j]

theorem min_add_collapse (x n : Nat) :
    min 15 (min 15 x + n) = min 15 (x + n) := by
  omega

theorem CountingVec.incList_char (L : List Nat) (v : CountingVec)
    (hwf : v.WF) (hL : ∀ p ∈ L, p < v.counters) :
    ∃ v', v.incList L = some v' ∧ v'.counters = v.counters ∧
      v'.counter_per_slot = v.counter_per_slot ∧
      v'.storage.length = v.storage.length ∧ v'.WF ∧
      ∀ j, v'.nibAt j = min 15 (v.nibAt j + L.count j) := by
  induction L generalizing v with
  | nil =>
    refine ⟨v, rfl, rfl, rfl, rfl, hwf, fun j => ?_⟩
    have hle := v.nibAt_le j
    simp only [List.count_nil, Nat.add_zero]
    omega
  | cons a rest ih =>
    obtain ⟨v₁, hv₁, hc₁, hcps₁, hl₁, hwf₁, hnib₁⟩ :=
      v.inc_char a hwf (hL a (List.mem_cons_self ..))
    obtain ⟨v₂, hv₂, hc₂, hcps₂, hl₂, hwf₂, hnib₂⟩ :=
      ih v₁ hwf₁ (fun p hp => hc₁ ▸ hL p (List.mem_cons_of_mem _ hp))
    refine ⟨v₂, ?_, hc₂.trans hc₁, hcps₂.trans hcps₁, hl₂.trans hl₁,
      hwf₂, ?_⟩
    · unfold CountingVec.incList
      rw [hv₁]
      exact hv₂
    · intro j
      rw [hnib₂ j, hnib₁ j]
      by_cases hj : j = a
      · subst hj
        rw [if_pos rfl, List.count_cons_self, min_add_collapse]
        congr 1
        omega
      · rw [if_neg hj, List.count_cons_of_ne hj]

theorem CountingVec.decList_char (L : List Nat) (v : CountingVec)
    (hwf : v.WF) (hL : ∀ p ∈ L, p < v.counters) :
    ∃ v', v.decList L = some v' ∧ v'.counters = v.counters ∧
      v'.counter_per_slot = v.counter_per_slot ∧
      v'.storage.length = v.storage.length ∧ v'.WF ∧
      ∀ j, v'.nibAt j = v.nibAt j - L.count j := by
  induction L generalizing v with
  | nil => exact ⟨v, rfl, rfl, rfl, rfl, hwf, fun j => by simp⟩
  | cons a rest ih =>
    obtain ⟨v₁, hv₁, hc₁, hcps₁, hl₁, hwf₁, hnib₁⟩ :=
      v.dec_char a hwf (hL a (List.mem_cons_self ..))
    obtain ⟨v₂, hv₂, hc₂, hcps₂, hl₂, hwf₂, hnib₂⟩ :=
      ih v₁ hwf₁ (fun p hp => hc₁ ▸ hL p (List.mem_cons_of_mem _ hp))
    refine ⟨v₂, ?_, hc₂.trans hc₁, hcps₂.trans hcps₁, hl₂.trans hl₁,
      hwf₂, ?_⟩
    · unfold CountingVec.decList
      rw [hv₁]
      exact hv₂
    · intro j
      rw [hnib₂ j, hnib₁ j]
      by_cases hj : j = a
      · subst hj
        rw [if_pos rfl, List.count_cons_self]
        omega
      · rw [if_neg hj, List.count_cons_of_ne hj]

theorem CountingVec.checkList_counts_eq (L : List Nat) (v : CountingVec)
    (hb : ∀ p ∈ L, p >>> 4 < v.storage.length) :
    v.checkList L = some (L.all (fun p => decide (0 < v.nibAt p))) := by
  induction L with
  | nil => rfl
  | cons i rest ih =>
    show (match v.get i with
      | none => none
      | some c => if 0 < c then v.checkList rest else some false) = _
    rw [v.get_eq_nibAt i (hb i (List.mem_cons_self ..))]
    show (if 0 < v.nibAt i then v.checkList rest else some false) = _
    by_cases hpos : 0 < v.nibAt i
    · rw [if_pos hpos, ih (fun p hp => hb p (List.mem_cons_of_mem _ hp))]
      simp [hpos]
    · rw [if_neg hpos]
      simp [hpos]

theorem CountingVec.checkList_counts_none (l₁ : List Nat) (p : Nat) (l₂ : List Nat)
    (v : CountingVec)
    (h₁ : ∀ q ∈ l₁, q >>> 4 < v.storage.length ∧ 0 < v.nibAt q)
    (hp : v.storage.length ≤ p >>> 4) :
    v.checkList (l₁ ++ p :: l₂) = none := by
  induction l₁ with
  | nil =>
    show (match v.get p with
      | none => none
      | some c => if 0 < c then v.checkList l₂ else some false) = none
    rw [v.get_count_none p hp]
  | cons q rest ih =>
    show (match v.get q with
      | none => none
      | some c => if 0 < c then v.checkList (rest ++ p :: l₂)
          else some false) = none
    rw [v.get_eq_nibAt q (h₁ q (List.mem_cons_self ..)).1]
    show (if 0 < v.nibAt q then v.checkList (rest ++ p :: l₂)
      else some false) = none
    rw [if_pos (h₁ q (List.mem_cons_self ..)).2]
    exact ih (fun x hx => h₁ x (List.mem_cons_of_mem _ hx))

theorem BloomBitVec.checkList_bits_none (l₁ : List Nat) (p : Nat) (l₂ : List Nat)
    (v : BloomBitVec)
    (h₁ : ∀ q ∈ l₁, q >>> 6 < v.storage.length ∧ v.bitAt q = true)
    (hp : v.storage.length ≤ p >>> 6) :
    v.checkList (l₁ ++ p :: l₂) = none := by
  induction l₁ with
  | nil =>
    show (match v.get p with
      | none => none
      | some false => some false
      | some true => v.checkList l₂) = none
    rw [v.get_bit_none p hp]
  | cons q rest ih =>
    show (match v.get q with
      | none => none
      | some false => some false
      | some true => v.checkList (rest ++ p :: l₂)) = none
    rw [v.get_eq_bitAt q (h₁ q (List.mem_cons_self ..)).1,
      (h₁ q (List.mem_cons_self ..)).2]
    exact ih (fun x hx => h₁ x (List.mem_cons_of_mem _ hx))

theorem CountingVec.ext_nibAt {v v' : CountingVec}
    (hlen : v'.storage.length = v.storage.length)
    (hc : v'.counters = v.counters)
    (hcps : v'.counter_per_slot = v.counter_per_slot)
    (hb : ∀ w ∈ v.storage, w < 2 ^ 64)
    (hb' : ∀ w ∈ v'.storage, w < 2 ^ 64)
    (hnib : ∀ j, v'.nibAt j = v.nibAt j) : v' = v := by
  obtain ⟨st, c, cps⟩ := v
  obtain ⟨st', c', cps'⟩ := v'
  simp only at hlen hc hcps hnib ⊢
  subst hc
  subst hcps
  congr 1
  refine List.ext_getElem hlen (fun w hw1 hw2 => ?_)
  refine word_nib_ext (hb' _ (List.getElem_mem hw1))
    (hb _ (List.getElem_mem hw2)) (fun b hb15 => ?_)
  have hj := hnib (16 * w + b)
  unfold CountingVec.nibAt at hj
  simp only at hj
  have hdiv : (16 * w + b) >>> 4 = w := by
    rw [shiftRight_four]
    omega
  have hmod : (16 * w + b) &&& 15 = b := by
    rw [and_15]
    omega
  rw [hdiv, hmod, List.getD_eq_getElem?_getD, List.getElem?_eq_getElem hw1,
    List.getD_eq_getElem?_getD, List.getElem?_eq_getElem hw2] at hj
  exact hj

theorem nib_word_lt_of_lt {p m len : Nat} (hp : p < m) (hm : m = 16 * len) :
    p >>> 4 < len := by
  rw [shiftRight_four]
  omega

/-! ### Characterizations of the counting-filter operations -/

theorem CountingBloomFilter.contains_all_counts (h : HashFn)
    (F : CountingBloomFilter) (E : Bytes) (hwf : F.WF) :
    F.contains h E = some
      ((derivedIndices h E F.config.size F.config.hashes).all
        (fun p => decide (0 < F.counting_vec.nibAt p))) := by
  obtain ⟨⟨hc, hcps, hbound⟩, hsz, hpos⟩ := hwf
  unfold CountingBloomFilter.contains
  rw [if_neg (Nat.pos_iff_ne_zero.mp hpos)]
  exact CountingVec.checkList_counts_eq _ _ (fun p hp => nib_word_lt_of_lt
    (derivedIndices_lt h E _ _ hpos p hp) (hsz.trans hc))

theorem tail_count_eq (h : HashFn) (E : Bytes) (m k : Nat) (j : Nat) :
    ((List.range' 1 (k - 1)).map (hashIdx (h E 0 % m) (h E 32 % m) m) ++
      [h E 0 % m]).count j = (derivedIndices h E m k).count j := by
  unfold derivedIndices
  rw [List.count_append, List.count_cons]
  simp only [List.count_cons, List.count_nil]
  omega

theorem tail_mem_derived (h : HashFn) (E : Bytes) (m k : Nat) :
    ∀ p ∈ (List.range' 1 (k - 1)).map
        (hashIdx (h E 0 % m) (h E 32 % m) m) ++ [h E 0 % m],
      p ∈ derivedIndices h E m k := by
  intro p hp
  unfold derivedIndices
  rcases List.mem_append.mp hp with hl | hr
  · exact List.mem_cons_of_mem _ hl
  · rw [List.mem_singleton.mp hr]
    exact List.mem_cons_self ..

theorem CountingBloomFilter.add_counts_char (h : HashFn) (F : CountingBloomFilter)
    (E : Bytes) (hwf : F.WF) :
    (F.contains h E = some true ∧ F.config.enable_repeat_insert = false →
      F.add h E = some F) ∧
    ((F.config.enable_repeat_insert = true ∨ F.contains h E = some false) →
      ∃ F', F.add h E = some F' ∧ F'.config = F.config ∧ F'.WF ∧
        F'.counting_vec.storage.length = F.counting_vec.storage.length ∧
        ∀ j, F'.counting_vec.nibAt j = min 15 (F.counting_vec.nibAt j +
          (derivedIndices h E F.config.size F.config.hashes).count j)) := by
  obtain ⟨⟨hc, hcps, hbound⟩, hsz, hpos⟩ := hwf
  have hm0 : F.config.size ≠ 0 := Nat.pos_iff_ne_zero.mp hpos
  have hcontains := F.contains_all_counts h E ⟨⟨hc, hcps, hbound⟩, hsz, hpos⟩
  have hcheck : F.counting_vec.checkList
      (derivedIndices h E F.config.size F.config.hashes) =
      some ((derivedIndices h E F.config.size F.config.hashes).all
        (fun p => decide (0 < F.counting_vec.nibAt p))) :=
    CountingVec.checkList_counts_eq _ _ (fun p hp => nib_word_lt_of_lt
      (derivedIndices_lt h E _ _ hpos p hp) (hsz.trans hc))
  constructor
  · rintro ⟨hcont, hrep⟩
    have hres : (derivedIndices h E F.config.size F.config.hashes).all
        (fun p => decide (0 < F.counting_vec.nibAt p)) = true := by
      rw [hcontains] at hcont
      injection hcont
    unfold CountingBloomFilter.add
    rw [if_neg hm0]
    show (match F.counting_vec.checkList
        (derivedIndices h E F.config.size F.config.hashes) with
      | none => none
      | some res =>
        if res && !F.config.enable_repeat_insert then some F
        else (F.counting_vec.incList
            ((List.range' 1 (F.config.hashes - 1)).map
              (hashIdx (h E 0 % F.config.size) (h E 32 % F.config.size)
                F.config.size) ++ [h E 0 % F.config.size])).map
          (fun v => ⟨F.config, v⟩)) = some F
    rw [hcheck]
    show (if (derivedIndices h E F.config.size F.config.hashes).all
        (fun p => decide (0 < F.counting_vec.nibAt p)) &&
        !F.config.enable_repeat_insert then some F else _) = some F
    rw [hres, hrep]
    rfl
  · intro hor
    have hbL : ∀ p ∈ (List.range' 1 (F.config.hashes - 1)).map
        (hashIdx (h E 0 % F.config.size) (h E 32 % F.config.size)
          F.config.size) ++ [h E 0 % F.config.size],
        p < F.counting_vec.counters := by
      intro p hp
      rw [← hsz]
      exact derivedIndices_lt h E _ _ hpos p
        (tail_mem_derived h E F.config.size F.config.hashes p hp)
    obtain ⟨v', hv', hc', hcps', hl', hwf', hnib'⟩ :=
      CountingVec.incList_char _ _ ⟨hc, hcps, hbound⟩ hbL
    have hcond : ((derivedIndices h E F.config.size F.config.hashes).all
        (fun p => decide (0 < F.counting_vec.nibAt p)) &&
        !F.config.enable_repeat_insert) = false := by
      rcases hor with hrep | hcont
      · rw [hrep]
        simp
      · have hres : (derivedIndices h E F.config.size F.config.hashes).all
            (fun p => decide (0 < F.counting_vec.nibAt p)) = false := by
          rw [hcontains] at hcont
          injection hcont
        rw [hres]
        simp
    refine ⟨⟨F.config, v'⟩, ?_, rfl, ⟨hwf', by rw [hc']; exact hsz, hpos⟩,
      hl', ?_⟩
    · unfold CountingBloomFilter.add
      rw [if_neg hm0]
      show (match F.counting_vec.checkList
          (derivedIndices h E F.config.size F.config.hashes) with
        | none => none
        | some res =>
          if res && !F.config.enable_repeat_insert then some F
          else (F.counting_vec.incList
              ((List.range' 1 (F.config.hashes - 1)).map
                (hashIdx (h E 0 % F.config.size) (h E 32 % F.config.size)
                  F.config.size) ++ [h E 0 % F.config.size])).map
            (fun v => ⟨F.config, v⟩)) = _
      rw [hcheck]
      show (if (derivedIndices h E F.config.size F.config.hashes).all
          (fun p => decide (0 < F.counting_vec.nibAt p)) &&
          !F.config.enable_repeat_insert then some F else _) = _
      rw [hcond, if_neg (by simp), hv']
      rfl
    · intro j
      rw [hnib' j, tail_count_eq]

theorem CountingBloomFilter.remove_char (h : HashFn)
    (F : CountingBloomFilter) (E : Bytes) (hwf : F.WF) :
    (F.contains h E = some false → F.remove h E = some F) ∧
    (F.contains h E = some true →
      ∃ F', F.remove h E = some F' ∧ F'.config = F.config ∧ F'.WF ∧
        F'.counting_vec.storage.length = F.counting_vec.storage.length ∧
        ∀ j, F'.counting_vec.nibAt j = F.counting_vec.nibAt j -
          (derivedIndices h E F.config.size F.config.hashes).count j) := by
  obtain ⟨⟨hc, hcps, hbound⟩, hsz, hpos⟩ := hwf
  have hm0 : F.config.size ≠ 0 := Nat.pos_iff_ne_zero.mp hpos
  have hcontains := F.contains_all_counts h E ⟨⟨hc, hcps, hbound⟩, hsz, hpos⟩
  have hcheck : F.counting_vec.checkList
      (derivedIndices h E F.config.size F.config.hashes) =
      some ((derivedIndices h E F.config.size F.config.hashes).all
        (fun p => decide (0 < F.counting_vec.nibAt p))) :=
    CountingVec.checkList_counts_eq _ _ (fun p hp => nib_word_lt_of_lt
      (derivedIndices_lt h E _ _ hpos p hp) (hsz.trans hc))
  constructor
  · intro hcont
    have hres : (derivedIndices h E F.config.size F.config.hashes).all
        (fun p => decide (0 < F.counting_vec.nibAt p)) = false := by
      rw [hcontains] at hcont
      injection hcont
    unfold CountingBloomFilter.remove
    rw [if_neg hm0]
    show (match F.counting_vec.checkList
        (derivedIndices h E F.config.size F.config.hashes) with
      | none => none
      | some res =>
        if res then (F.counting_vec.decList
            ((List.range' 1 (F.config.hashes - 1)).map
              (hashIdx (h E 0 % F.config.size) (h E 32 % F.config.size)
                F.config.size) ++ [h E 0 % F.config.size])).map
          (fun v => ⟨F.config, v⟩)
        else some F) = some F
    rw [hcheck]
    show (if (derivedIndices h E F.config.size F.config.hashes).all
        (fun p => decide (0 < F.counting_vec.nibAt p)) = true then _
      else some F) = some F
    rw [hres]
    rfl
  · intro hcont
    have hres : (derivedIndices h E F.config.size F.config.hashes).all
        (fun p => decide (0 < F.counting_vec.nibAt p)) = true := by
      rw [hcontains] at hcont
      injection hcont
    have hbL : ∀ p ∈ (List.range' 1 (F.config.hashes - 1)).map
        (hashIdx (h E 0 % F.config.size) (h E 32 % F.config.size)
          F.config.size) ++ [h E 0 % F.config.size],
        p < F.counting_vec.counters := by
      intro p hp
      rw [← hsz]
      exact derivedIndices_lt h E _ _ hpos p
        (tail_mem_derived h E F.config.size F.config.hashes p hp)
    obtain ⟨v', hv', hc', hcps', hl', hwf', hnib'⟩ :=
      CountingVec.decList_char _ _ ⟨hc, hcps, hbound⟩ hbL
    refine ⟨⟨F.config, v'⟩, ?_, rfl, ⟨hwf', by rw [hc']; exact hsz, hpos⟩,
      hl', ?_⟩
    · unfold CountingBloomFilter.remove
      rw [if_neg hm0]
      show (match F.counting_vec.checkList
          (derivedIndices h E F.config.size F.config.hashes) with
        | none => none
        | some res =>
          if res then (F.counting_vec.decList
              ((List.range' 1 (F.config.hashes - 1)).map
                (hashIdx (h E 0 % F.config.size) (h E 32 % F.config.size)
                  F.config.size) ++ [h E 0 % F.config.size])).map
            (fun v => (⟨F.config, v⟩ : CountingBloomFilter))
          else some F) = _
      rw [hcheck]
      show (if (derivedIndices h E F.config.size F.config.hashes).all
          (fun p => decide (0 < F.counting_vec.nibAt p)) = true then _
        else some F) = _
      rw [if_pos hres, hv']
      rfl
    · intro j
      rw [hnib' j, tail_count_eq]

/-! ### Claim C3 -/

/-- Claim C3: saturation safety of the counting vector.  Every counter read
is in {0..15} in every state; `increment` writes `current + 1` only when the
current value is below 15, leaves a saturated counter (and the whole vector)
untouched, and never modifies any other counter; `decrement` writes
`current - 1` only when the current value is positive, leaves a zero counter
untouched, and never modifies any other counter. -/
theorem counting_vec_saturation (v : CountingVec) (i : Nat) (hwf : v.WF)
    (hi : i < v.counters) :
    (∀ (u : CountingVec) (idx c : Nat), u.get idx = some c → c ≤ 15) ∧
    (∃ v', v.increment i = some v' ∧
      (v.nibAt i < 15 → v'.nibAt i = v.nibAt i + 1) ∧
      (v.nibAt i = 15 → v' = v) ∧
      (∀ j, j ≠ i → v'.nibAt j = v.nibAt j) ∧
      v'.storage.length = v.storage.length ∧ v'.WF) ∧
    (∃ v'', v.decrement i = some v'' ∧
      (0 < v.nibAt i → v''.nibAt i = v.nibAt i - 1) ∧
      (v.nibAt i = 0 → v'' = v) ∧
      (∀ j, j ≠ i → v''.nibAt j = v.nibAt j) ∧
      v''.storage.length = v.storage.length ∧ v''.WF) := by
  obtain ⟨v', hinc, hc', hcps', hl', hwf', hnib'⟩ := v.inc_char i hwf hi
  obtain ⟨v'', hdec, hc'', hcps'', hl'', hwf'', hnib''⟩ :=
    v.dec_char i hwf hi
  refine ⟨fun u idx c hg => CountingVec.get_le hg,
    ⟨v', hinc, ?_, ?_, fun j hj => by rw [hnib' j, if_neg hj], hl', hwf'⟩,
    ⟨v'', hdec, ?_, ?_, fun j hj => by rw [hnib'' j, if_neg hj], hl'',
      hwf''⟩⟩
  · intro hlt
    rw [hnib' i, if_pos rfl]
    omega
  · intro hsat
    refine CountingVec.ext_nibAt hl' hc' hcps' hwf.2.2 hwf'.2.2 (fun j => ?_)
    rw [hnib' j]
    by_cases hj : j = i
    · subst hj
      rw [if_pos rfl, hsat]
      omega
    · rw [if_neg hj]
  · intro hpos
    rw [hnib'' i, if_pos rfl]
  · intro hz
    refine CountingVec.ext_nibAt hl'' hc'' hcps'' hwf.2.2 hwf''.2.2
      (fun j => ?_)
    rw [hnib'' j]
    by_cases hj : j = i
    · subst hj
      rw [if_pos rfl, hz]
    · rw [if_neg hj]

/-- Witness for C3 at a concrete counting vector and index. -/
theorem counting_vec_saturation_wit :
    (∀ (u : CountingVec) (idx c : Nat), u.get idx = some c → c ≤ 15) ∧
    (∃ v', (⟨[0, 0], 32, 16⟩ : CountingVec).increment 5 = some v' ∧
      ((⟨[0, 0], 32, 16⟩ : CountingVec).nibAt 5 < 15 →
        v'.nibAt 5 = (⟨[0, 0], 32, 16⟩ : CountingVec).nibAt 5 + 1) ∧
      ((⟨[0, 0], 32, 16⟩ : CountingVec).nibAt 5 = 15 →
        v' = (⟨[0, 0], 32, 16⟩ : CountingVec)) ∧
      (∀ j, j ≠ 5 → v'.nibAt j = (⟨[0, 0], 32, 16⟩ : CountingVec).nibAt j) ∧
      v'.storage.length = ([0, 0] : List Nat).length ∧ v'.WF) ∧
    (∃ v'', (⟨[0, 0], 32, 16⟩ : CountingVec).decrement 5 = some v'' ∧
      (0 < (⟨[0, 0], 32, 16⟩ : CountingVec).nibAt 5 →
        v''.nibAt 5 = (⟨[0, 0], 32, 16⟩ : CountingVec).nibAt 5 - 1) ∧
      ((⟨[0, 0], 32, 16⟩ : CountingVec).nibAt 5 = 0 →
        v'' = (⟨[0, 0], 32, 16⟩ : CountingVec)) ∧
      (∀ j, j ≠ 5 →
        v''.nibAt j = (⟨[0, 0], 32, 16⟩ : CountingVec).nibAt j) ∧
      v''.storage.length = ([0, 0] : List Nat).length ∧ v''.WF) :=
  counting_vec_saturation ⟨[0, 0], 32, 16⟩ 5 (by decide) (by decide)

/-! ### Claim C4 -/

/-- Claim C4: counting-filter add contract.  On a well-formed counting
filter, the element is "present" exactly when all derived counters are
positive; with `enable_repeat_insert = false` and the element present,
`add` returns the filter completely unchanged; otherwise `add` increments
all derived counters (each increment saturating at 15: a position listed
`n` times moves from `c` to `min 15 (c + n)`). -/
theorem counting_add_contract (h : HashFn) (F : CountingBloomFilter)
    (E : Bytes) (hwf : F.WF) :
    (F.contains h E = some
      ((derivedIndices h E F.config.size F.config.hashes).all
        (fun p => decide (0 < F.counting_vec.nibAt p)))) ∧
    (F.config.enable_repeat_insert = false → F.contains h E = some true →
      F.add h E = some F) ∧
    ((F.config.enable_repeat_insert = true ∨ F.contains h E = some false) →
      ∃ F', F.add h E = some F' ∧ F'.config = F.config ∧ F'.WF ∧
        ∀ j, F'.counting_vec.nibAt j = min 15 (F.counting_vec.nibAt j +
          (derivedIndices h E F.config.size F.config.hashes).count j)) := by
  obtain ⟨hskip, hinsert⟩ := F.add_counts_char h E hwf
  refine ⟨F.contains_all_counts h E hwf, fun hrep hcont => hskip ⟨hcont, hrep⟩,
    fun hor => ?_⟩
  obtain ⟨F', hF', hc', hwf', _, hnib'⟩ := hinsert hor
  exact ⟨F', hF', hc', hwf', hnib'⟩

/-- Concrete well-formed counting filter with all counters zero. -/
def cbfFx : CountingBloomFilter := ⟨⟨0, 0, 32, 2, true, true⟩, ⟨[0, 0], 32, 16⟩⟩

/-- Witness for C4 at a concrete counting filter, hash and element. -/
theorem counting_add_contract_wit :
    (cbfFx.contains hashFx [7] = some
      ((derivedIndices hashFx [7] cbfFx.config.size
          cbfFx.config.hashes).all
        (fun p => decide (0 < cbfFx.counting_vec.nibAt p)))) ∧
    (cbfFx.config.enable_repeat_insert = false →
      cbfFx.contains hashFx [7] = some true →
      cbfFx.add hashFx [7] = some cbfFx) ∧
    ((cbfFx.config.enable_repeat_insert = true ∨
        cbfFx.contains hashFx [7] = some false) →
      ∃ F', cbfFx.add hashFx [7] = some F' ∧ F'.config = cbfFx.config ∧
        F'.WF ∧
        ∀ j, F'.counting_vec.nibAt j = min 15 (cbfFx.counting_vec.nibAt j +
          (derivedIndices hashFx [7] cbfFx.config.size
            cbfFx.config.hashes).count j)) :=
  counting_add_contract hashFx cbfFx [7] (by decide)

/-! ### Claim C5 -/

theorem CountingBloomFilter.addTimes_char (h : HashFn) (E : Bytes)
    (r : Nat) (F : CountingBloomFilter) (hwf : F.WF)
    (hrep : F.config.enable_repeat_insert = true) :
    ∃ G, F.addTimes h E r = some G ∧ G.config = F.config ∧ G.WF ∧
      G.counting_vec.counters = F.counting_vec.counters ∧
      G.counting_vec.counter_per_slot = F.counting_vec.counter_per_slot ∧
      G.counting_vec.storage.length = F.counting_vec.storage.length ∧
      ∀ j, G.counting_vec.nibAt j = min 15 (F.counting_vec.nibAt j +
        r * (derivedIndices h E F.config.size F.config.hashes).count j) := by
  induction r generalizing F with
  | zero =>
    refine ⟨F, rfl, rfl, hwf, rfl, rfl, rfl, fun j => ?_⟩
    have := F.counting_vec.nibAt_le j
    omega
  | succ r ih =>
    obtain ⟨F₁, hF₁, hc₁, hwf₁, hlen₁, hnib₁⟩ :=
      (F.add_counts_char h E hwf).2 (Or.inl hrep)
    obtain ⟨G, hG, hcG, hwfG, hcnG, hcpsG, hlG, hnibG⟩ :=
      ih F₁ hwf₁ (by rw [hc₁]; exact hrep)
    have hcfgsz : F₁.config.size = F.config.size := by rw [hc₁]
    have hcfgh : F₁.config.hashes = F.config.hashes := by rw [hc₁]
    have hcn₁ : F₁.counting_vec.counters = F.counting_vec.counters := by
      have ha := hwf₁.1.1
      have hb := hwf.1.1
      omega
    have hcps₁ : F₁.counting_vec.counter_per_slot =
        F.counting_vec.counter_per_slot := by
      rw [hwf₁.1.2.1, hwf.1.2.1]
    refine ⟨G, ?_, hcG.trans hc₁, hwfG, hcnG.trans hcn₁, hcpsG.trans hcps₁,
      hlG.trans hlen₁, fun j => ?_⟩
    · show (match F.add h E with
        | none => none
        | some F' => F'.addTimes h E r) = some G
      rw [hF₁]
      exact hG
    · rw [hnibG j, hcfgsz, hcfgh, hnib₁ j, min_add_collapse]
      congr 1
      ring

theorem CountingBloomFilter.removeTimes_restore (h : HashFn) (E : Bytes)
    (F : CountingBloomFilter) :
    ∀ (t : Nat) (G : CountingBloomFilter), G.config = F.config → G.WF →
      G.counting_vec.counter_per_slot = F.counting_vec.counter_per_slot →
      G.counting_vec.storage.length = F.counting_vec.storage.length →
      (∀ j, G.counting_vec.nibAt j = F.counting_vec.nibAt j +
        t * (derivedIndices h E F.config.size F.config.hashes).count j) →
      ∃ G', G.removeTimes h E t = some G' ∧ G'.config = F.config ∧
        G'.WF ∧
        G'.counting_vec.counter_per_slot =
          F.counting_vec.counter_per_slot ∧
        G'.counting_vec.storage.length = F.counting_vec.storage.length ∧
        ∀ j, G'.counting_vec.nibAt j = F.counting_vec.nibAt j := by
  intro t
  induction t with
  | zero =>
    intro G hcfg hwfG hcps hl hnib
    exact ⟨G, rfl, hcfg, hwfG, hcps, hl, fun j => by rw [hnib j]; simp⟩
  | succ t ih =>
    intro G hcfg hwfG hcps hl hnib
    have hDG : derivedIndices h E G.config.size G.config.hashes =
        derivedIndices h E F.config.size F.config.hashes := by
      rw [hcfg]
    have hcontG : G.contains h E = some true := by
      rw [G.contains_all_counts h E hwfG, hDG]
      have hall : (derivedIndices h E F.config.size F.config.hashes).all
          (fun p => decide (0 < G.counting_vec.nibAt p)) = true := by
        refine List.all_eq_true.mpr (fun p hp => ?_)
        have hcp : 0 < (derivedIndices h E F.config.size
            F.config.hashes).count p := List.count_pos_iff.mpr hp
        have hmul : 0 < (t + 1) * (derivedIndices h E F.config.size
            F.config.hashes).count p := Nat.mul_pos (by omega) hcp
        have hnp := hnib p
        simp only [decide_eq_true_eq]
        omega
      rw [hall]
    obtain ⟨G₁, hG₁, hcfg₁, hwfG₁, hlen₁, hnib₁⟩ :=
      (G.remove_char h E hwfG).2 hcontG
    have hcps₁ : G₁.counting_vec.counter_per_slot =
        G.counting_vec.counter_per_slot := by
      rw [hwfG₁.1.2.1, hwfG.1.2.1]
    have hnibG₁ : ∀ j, G₁.counting_vec.nibAt j =
        F.counting_vec.nibAt j + t * (derivedIndices h E F.config.size
          F.config.hashes).count j := by
      intro j
      rw [hnib₁ j, hDG, hnib j]
      have hmul : (t + 1) * (derivedIndices h E F.config.size
          F.config.hashes).count j = t * (derivedIndices h E F.config.size
          F.config.hashes).count j + (derivedIndices h E F.config.size
          F.config.hashes).count j := by
        ring
      omega
    obtain ⟨G', hG', hcfg', hwfG', hcps', hl', hnib'⟩ :=
      ih G₁ (hcfg₁.trans hcfg) hwfG₁ (hcps₁.trans hcps)
        (hlen₁.trans hl) hnibG₁
    refine ⟨G', ?_, hcfg', hwfG', hcps', hl', hnib'⟩
    show (match G.remove h E with
      | none => none
      | some F' => F'.removeTimes h E t) = some G'
    rw [hG₁]
    exact hG'

/-- Counting filter whose single derived counter is already saturated at
15 (stored in the most significant nibble of the one word). -/
def cbfSat : CountingBloomFilter :=
  ⟨⟨0, 0, 16, 1, true, true⟩, ⟨[15 <<< 60], 16, 16⟩⟩

/-- Counterexample to C5 as stated: on a well-formed counting filter with
`enable_repeat_insert = true` and `r = 1`, one `add` followed by one
`remove` does not return the byte image to the pre-add state when a derived
counter is saturated — the add is absorbed by saturation but the remove
still decrements, leaving the counter at 14. -/
theorem remove_cancels_add_cex :
    cbfSat.WF ∧ cbfSat.config.enable_repeat_insert = true ∧ 1 ≤ 1 ∧
    (cbfSat.addTimes hashZero [] 1).bind
      (fun G => G.removeTimes hashZero [] 1) =
      some ⟨⟨0, 0, 16, 1, true, true⟩, ⟨[14 <<< 60], 16, 16⟩⟩ ∧
    (⟨⟨0, 0, 16, 1, true, true⟩, ⟨[14 <<< 60], 16, 16⟩⟩ :
      CountingBloomFilter).counting_vec.storage ≠
      cbfSat.counting_vec.storage :=
  ⟨by decide, rfl, by decide, by decide, by decide⟩

/-- Claim C5 (amended): remove cancels add, provided no derived counter
saturates.  On a well-formed counting filter with
`enable_repeat_insert = true`, for every `r ≥ 1`, performing `r` adds of an
element followed by `r` removes of that element returns the filter exactly
to its initial state — provided every derived counter has room for all `r`
increments (its initial value plus `r` times its multiplicity in the index
tuple stays at most 15).  The saturation proviso is forced by the
counterexample; the no-interference proviso of the claim holds because only
`E` is touched. -/
theorem remove_cancels_add_amended (h : HashFn) (F : CountingBloomFilter)
    (E : Bytes) (r : Nat) (hwf : F.WF) (hr : 1 ≤ r)
    (hrep : F.config.enable_repeat_insert = true)
    (hsat : ∀ p ∈ derivedIndices h E F.config.size F.config.hashes,
      F.counting_vec.nibAt p +
        r * (derivedIndices h E F.config.size F.config.hashes).count p ≤
        15) :
    (F.addTimes h E r).bind (fun G => G.removeTimes h E r) = some F := by
  have hsat' : ∀ j, F.counting_vec.nibAt j +
      r * (derivedIndices h E F.config.size F.config.hashes).count j ≤
      15 := by
    intro j
    by_cases hj : j ∈ derivedIndices h E F.config.size F.config.hashes
    · exact hsat j hj
    · rw [List.count_eq_zero.mpr hj]
      have := F.counting_vec.nibAt_le j
      omega
  obtain ⟨G, hG, hcfgG, hwfG, hcnG, hcpsG, hlG, hnibG⟩ :=
    CountingBloomFilter.addTimes_char h E r F hwf hrep
  have hnibG' : ∀ j, G.counting_vec.nibAt j = F.counting_vec.nibAt j +
      r * (derivedIndices h E F.config.size F.config.hashes).count j := by
    intro j
    rw [hnibG j]
    have := hsat' j
    omega
  obtain ⟨G', hG', hcfg', hwfG', hcps', hl', hnib'⟩ :=
    CountingBloomFilter.removeTimes_restore h E F r G hcfgG hwfG hcpsG
      hlG hnibG'
  have hcn' : G'.counting_vec.counters = F.counting_vec.counters := by
    have h1 := hwfG'.2.1
    have h2 := hwf.2.1
    rw [hcfg'] at h1
    omega
  have hvec : G'.counting_vec = F.counting_vec :=
    CountingVec.ext_nibAt hl' hcn' (hcps'.trans rfl) hwf.1.2.2 hwfG'.1.2.2
      hnib'
  have hGF : G' = F := by
    calc G' = ⟨G'.config, G'.counting_vec⟩ := rfl
    _ = ⟨F.config, F.counting_vec⟩ := by rw [hcfg', hvec]
    _ = F := rfl
  rw [hG]
  show G.removeTimes h E r = some F
  rw [hG', hGF]

/-- Witness for the amended C5 at a concrete filter, hash, element and
`r = 2`. -/
theorem remove_cancels_add_amended_wit :
    (cbfFx.addTimes hashFx [7] 2).bind
      (fun G => G.removeTimes hashFx [7] 2) = some cbfFx :=
  remove_cancels_add_amended hashFx cbfFx [7] 2 (by decide) (by decide) rfl
    (by decide)

/-! ### Claim C10 -/

/-- All-zero one-word Bloom filter with `m = 64`, used to refute the claim
that any out-of-range entry makes `contains_hash_indices` panic. -/
def bloomZ : BloomFilter := ⟨⟨0, 0, 64, 1, true, true⟩, ⟨[0], 64⟩⟩

/-- Counterexample to C10 as stated: the index vector `[0, 64]` contains the
entry `64 ≥ m = 64` (at and beyond the storage capacity), yet
`contains_hash_indices` does not panic — it returns `some false` because the
scan short-circuits on the unset bit 0 before ever reaching the
out-of-range entry. -/
theorem contains_hash_indices_cex :
    bloomZ.WF ∧ bloomZ.config.size ≤ 64 ∧
    bloomZ.contains_hash_indices [0, 64] = some false :=
  ⟨by decide, by decide, by decide⟩

/-- Claim C10 (amended): raw-index queries.  When every listed index is
below the filter's bit size `m` (the storage capacity of a well-formed
filter), `contains_hash_indices` performs no out-of-range access and
returns true iff every listed bit is set (for the counting filter, iff
every listed counter is non-zero).  An entry at or above the capacity
causes an out-of-range indexing panic exactly when the scan reaches it,
i.e. when every earlier listed index is in range and tests set (non-zero);
the bound is never checked by the code. -/
theorem contains_hash_indices_amended :
    (∀ (F : BloomFilter) (indices : List Nat), F.WF →
      (∀ p ∈ indices, p < F.config.size) →
      F.contains_hash_indices indices =
        some (indices.all F.bit_set.bitAt)) ∧
    (∀ (F : BloomFilter) (l₁ : List Nat) (p : Nat) (l₂ : List Nat), F.WF →
      (∀ q ∈ l₁, q < F.config.size ∧ F.bit_set.bitAt q = true) →
      F.config.size ≤ p →
      F.contains_hash_indices (l₁ ++ p :: l₂) = none) ∧
    (∀ (F : CountingBloomFilter) (indices : List Nat), F.WF →
      (∀ p ∈ indices, p < F.config.size) →
      F.contains_hash_indices indices =
        some (indices.all
          (fun q => decide (0 < F.counting_vec.nibAt q)))) ∧
    (∀ (F : CountingBloomFilter) (l₁ : List Nat) (p : Nat) (l₂ : List Nat),
      F.WF →
      (∀ q ∈ l₁, q < F.config.size ∧ 0 < F.counting_vec.nibAt q) →
      F.config.size ≤ p →
      F.contains_hash_indices (l₁ ++ p :: l₂) = none) := by
  refine ⟨?_, ?_, ?_, ?_⟩
  · intro F indices hwf hidx
    obtain ⟨⟨hnb, _⟩, hsz, _⟩ := hwf
    exact BloomBitVec.checkList_bits_eq _ _
      (fun p hp => word_lt_of_lt (hidx p hp) (hsz.trans hnb))
  · intro F l₁ p l₂ hwf h₁ hp
    obtain ⟨⟨hnb, _⟩, hsz, _⟩ := hwf
    refine BloomBitVec.checkList_bits_none _ _ _ _
      (fun q hq => ⟨word_lt_of_lt (h₁ q hq).1 (hsz.trans hnb),
        (h₁ q hq).2⟩) ?_
    rw [shiftRight_six]
    have : F.config.size = 64 * F.bit_set.storage.length := hsz.trans hnb
    omega
  · intro F indices hwf hidx
    obtain ⟨⟨hc, _, _⟩, hsz, _⟩ := hwf
    exact CountingVec.checkList_counts_eq _ _
      (fun p hp => nib_word_lt_of_lt (hidx p hp) (hsz.trans hc))
  · intro F l₁ p l₂ hwf h₁ hp
    obtain ⟨⟨hc, _, _⟩, hsz, _⟩ := hwf
    refine CountingVec.checkList_counts_none _ _ _ _
      (fun q hq => ⟨nib_word_lt_of_lt (h₁ q hq).1 (hsz.trans hc),
        (h₁ q hq).2⟩) ?_
    rw [shiftRight_four]
    have : F.config.size = 16 * F.counting_vec.storage.length :=
      hsz.trans hc
    omega

/-- Witness for the amended C10 at concrete filters and index vectors. -/
theorem contains_hash_indices_amended_wit :
    bloomFx.contains_hash_indices [0, 1] =
      some (([0, 1] : List Nat).all bloomFx.bit_set.bitAt) ∧
    bloomFy.contains_hash_indices ([0] ++ 128 :: [3]) = none ∧
    cbfFx.contains_hash_indices [0, 1] =
      some (([0, 1] : List Nat).all
        (fun q => decide (0 < cbfFx.counting_vec.nibAt q))) ∧
    cbfSat.contains_hash_indices ([0] ++ 16 :: []) = none :=
  ⟨contains_hash_indices_amended.1 bloomFx [0, 1] (by decide) (by decide),
   contains_hash_indices_amended.2.1 bloomFy [0] 128 [3] (by decide)
     (by decide) (by decide),
   contains_hash_indices_amended.2.2.1 cbfFx [0, 1] (by decide)
     (by decide),
   contains_hash_indices_amended.2.2.2 cbfSat [0] 16 [] (by decide)
     (by decide) (by decide)⟩
